import Mathlib

/-!
Verification of the node-fpgrowth repository: a shallow embedding of
`src/fpnode.ts`, `src/fptree.ts` and `src/fpgrowth.ts` (FP-tree construction
and the FP-Growth mining procedure), together with theorems settling the
frozen claims about its specification.

Modelling conventions:

* Items are `Nat`.  The repository is generic in `T` and keys every map by
  `JSON.stringify(item)`; for numbers that is the decimal string, so distinct
  `Nat` items give distinct keys and the example driver uses numbers.
* JS objects are modelled as insertion-ordered association lists
  `List (Nat × Nat)`: assignment to an existing key keeps its position and
  replaces the value, a fresh key is appended.  `Object.keys` on an object
  all of whose keys are integer-like strings returns them in ascending
  numeric order, which is how `_getHeaderList` observes `_firstInserted`.
* The pointer structure of the tree (parent / children / nextSameItemNode
  references, in-place mutation of node supports) is modelled as an arena:
  `nodes : List NodeData`, a node's identity being its index, indices being
  assigned in creation order.  Index 0 is the root made by the constructor.
* Recursive pointer walks take an explicit fuel argument, always invoked
  with `nodes.length`, which suffices because parent indices are smaller
  and child / node-link indices are larger than the current index.
* `throw new Error(...)` is modelled with `Except String`.
-/

/-- A tree node (`FPNode` of fpnode.ts): `item` is `none` only for the root,
`parent` and `children` are arena indices, `nextSameItemNode` is the node
link.  The constructor defaults are support 1, no link, no children. -/
structure NodeData where
  item : Option Nat
  support : Nat
  parent : Option Nat
  children : List Nat
  nextSameItemNode : Option Nat
deriving DecidableEq

/-- Reading `object[key]` on a JS object modelled as an association list. -/
def lookupA (m : List (Nat × Nat)) (k : Nat) : Option Nat :=
  (m.find? (fun p => p.1 == k)).map Prod.snd

/-- Writing `object[key] = v`: existing keys keep their position, a new key
is appended (JS string-key insertion order). -/
def setA (m : List (Nat × Nat)) (k v : Nat) : List (Nat × Nat) :=
  if (m.find? (fun p => p.1 == k)).isSome then
    m.map (fun p => if p.1 == k then (k, v) else p)
  else m ++ [(k, v)]

/-- `object[key] = (object[key] || 0) + w`. -/
def incA (m : List (Nat × Nat)) (k w : Nat) : List (Nat × Nat) :=
  match lookupA m k with
  | some v => setA m k (v + w)
  | none => setA m k w

/-- The `FPTree` instance state: the node arena (index 0 is the root), the
`_firstInserted` / `_lastInserted` node maps (item key to arena index), the
constructor's `supports` table and minimum support, the `_headers` list
(filled by the build methods) and the `_isInit` flag. -/
structure FPTreeState where
  nodes : List NodeData
  firstInserted : List (Nat × Nat)
  lastInserted : List (Nat × Nat)
  supports : List (Nat × Nat)
  minSupport : Nat
  headers : List Nat
  isInit : Bool
deriving DecidableEq

/-- The root node made by `new FPNode<T>()`: no item, support 1, no parent. -/
def rootNode : NodeData := ⟨none, 1, none, [], none⟩

/-- The `FPTree` constructor (fptree.ts line 53). -/
def mkFPTree (supports : List (Nat × Nat)) (minSupport : Nat) : FPTreeState :=
  ⟨[rootNode], [], [], supports, minSupport, [], false⟩

def nodeAt (s : FPTreeState) (i : Nat) : Option NodeData := s.nodes[i]?

def itemOf (s : FPTreeState) (i : Nat) : Option Nat :=
  match nodeAt s i with
  | some nd => nd.item
  | none => none

def supportOf (s : FPTreeState) (i : Nat) : Nat :=
  match nodeAt s i with
  | some nd => nd.support
  | none => 0

def parentOf (s : FPTreeState) (i : Nat) : Option Nat :=
  match nodeAt s i with
  | some nd => nd.parent
  | none => none

def childrenOf (s : FPTreeState) (i : Nat) : List Nat :=
  match nodeAt s i with
  | some nd => nd.children
  | none => []

def nextOf (s : FPTreeState) (i : Nat) : Option Nat :=
  match nodeAt s i with
  | some nd => nd.nextSameItemNode
  | none => none

/-- In-place mutation of the node at index `i`. -/
def modifyAt (l : List NodeData) (i : Nat) (f : NodeData → NodeData) : List NodeData :=
  match l[i]? with
  | some a => l.set i (f a)
  | none => l

/-- `FPNode.getChild` (fpnode.ts 63-65): linear scan of the children by item
equality, returning the first match. -/
def getChildId (s : FPTreeState) (pid : Nat) (it : Nat) : Option Nat :=
  (childrenOf s pid).find? (fun c => itemOf s c == some it)

/-- `FPTree._updateLastInserted` (fptree.ts 288-292): link the previous last
node of this item to the new child, then record the child as last. -/
def updateLastInserted (s : FPTreeState) (k : Nat) (cid : Nat) : FPTreeState :=
  let s1 := match lookupA s.lastInserted k with
    | some lastId =>
        let nodes1 := modifyAt s.nodes lastId (fun nd => { nd with nextSameItemNode := some cid })
        { s with nodes := nodes1 }
    | none => s
  { s1 with lastInserted := setA s1.lastInserted k cid }

/-- `FPTree._updateFirstInserted` (fptree.ts 300-303): record the child only
if no node of this item was inserted before. -/
def updateFirstInserted (s : FPTreeState) (k : Nat) (cid : Nat) : FPTreeState :=
  match lookupA s.firstInserted k with
  | some _ => s
  | none => { s with firstInserted := setA s.firstInserted k cid }

/-- `FPNode.upsertChild` (fpnode.ts 40-55) together with the `onNewChild`
callback installed by `FPTree._addItems` (fptree.ts 222-227): if a child with
this item exists its support is incremented, otherwise a new node is created,
appended to the parent's children, and registered in the node-link maps
(`_updateLastInserted` first, then `_updateFirstInserted`).  Returns the new
state and the child's index. -/
def upsertChild (s : FPTreeState) (pid : Nat) (it : Nat) (w : Nat) : FPTreeState × Nat :=
  match getChildId s pid it with
  | some cid =>
      let nodes1 := modifyAt s.nodes cid (fun nd => { nd with support := nd.support + w })
      ({ s with nodes := nodes1 }, cid)
  | none =>
      let cid := s.nodes.length
      let child : NodeData := ⟨some it, w, some pid, [], none⟩
      let nodes1 := modifyAt (s.nodes ++ [child]) pid (fun nd => { nd with children := nd.children ++ [cid] })
      let s1 := { s with nodes := nodes1 }
      (updateFirstInserted (updateLastInserted s1 it cid) it cid, cid)

/-- `FPTree._addItems` (fptree.ts 214-229): walk down from the root,
upserting each item with the given support contribution. -/
def addItems (s : FPTreeState) (items : List Nat) (w : Nat) : FPTreeState :=
  (items.foldl (fun acc it => upsertChild acc.1 acc.2 it w) (s, 0)).1

/-- Lexicographic comparison of two digit strings, as `localeCompare`
performs on the JSON representations of number items. -/
def digitsLt : List Char → List Char → Bool
  | [], [] => false
  | [], _ :: _ => true
  | _ :: _, [] => false
  | a :: as, b :: bs => if a < b then true else if b < a then false else digitsLt as bs

/-- `JSON.stringify` of a `Nat` item: its decimal digit string. -/
def keyStr (n : Nat) : List Char := Nat.toDigits 10 n

def keyLt (a b : Nat) : Bool := digitsLt (keyStr a) (keyStr b)

/-- One insertion step of a stable insertion sort: `a` is placed before the
first element it must strictly precede, hence after every earlier-inserted
element the comparator ties with. -/
def insertBefore (lt : Nat → Nat → Bool) (a : Nat) : List Nat → List Nat
  | [] => [a]
  | b :: l => if lt a b then a :: b :: l else b :: insertBefore lt a l

/-- JS `Array.prototype.sort` with a user comparator (stable since ES2019),
given as the strict order `lt a b` = "the comparator puts `a` before `b`". -/
def stableSort (lt : Nat → Nat → Bool) (l : List Nat) : List Nat :=
  l.foldl (fun acc a => insertBefore lt a acc) []

/-- The transaction comparator of `fromTransactions` / `fromPrefixPaths`
(fptree.ts 72-76): descending global support, ties by descending key string
(`JSON.stringify(b).localeCompare(JSON.stringify(a))`). -/
def txBefore (sup : List (Nat × Nat)) (a b : Nat) : Bool :=
  let sa := (lookupA sup a).getD 0
  let sb := (lookupA sup b).getD 0
  if sb < sa then true
  else if sa == sb then keyLt b a
  else false

/-- JS `supports[key] >= minSupport`: an absent key compares false. -/
def jsGE (o : Option Nat) (m : Nat) : Bool :=
  match o with
  | some v => m ≤ v
  | none => false

/-- The pruning filter plus sort applied to every transaction or prefix path
before insertion (fptree.ts 67-76 and 99-108). -/
def filterSortItems (sup : List (Nat × Nat)) (m : Nat) (t : List Nat) : List Nat :=
  stableSort (txBefore sup) (t.filter (fun i => jsGE (lookupA sup i) m))

/-- `Object.keys` of a map whose keys are all integer-like strings: the keys
in ascending numeric order. -/
def jsKeys (mp : List (Nat × Nat)) : List Nat :=
  stableSort (fun a b => a < b) (mp.map Prod.fst)

/-- `FPTree._getHeaderList` (fptree.ts 311-315): the keys of `_firstInserted`
stable-sorted ascending by their global support (no further tie-break in the
comparator). -/
def getHeaderList (s : FPTreeState) : List Nat :=
  stableSort
    (fun a b => (lookupA s.supports a).getD 0 < (lookupA s.supports b).getD 0)
    (jsKeys s.firstInserted)

/-- The message of every `throw new Error(...)` in fptree.ts. -/
def errMsg : String := "Error building the FPTree"

/-- The transaction loop of `fromTransactions` (fptree.ts 67-79): prune and
sort every transaction, then insert it with support contribution 1. -/
def txFold (s : FPTreeState) (ts : List (List Nat)) : FPTreeState :=
  ts.foldl (fun acc t => addItems acc (filterSortItems acc.supports acc.minSupport t) 1) s

/-- `FPTree.fromTransactions` (fptree.ts 62-86). -/
def fromTransactions (s : FPTreeState) (ts : List (List Nat)) : Except String FPTreeState :=
  if s.isInit then .error errMsg
  else
    let s1 := txFold s ts
    .ok { s1 with headers := getHeaderList s1, isInit := true }

/-- An `IPrefixPath<T>` record (fptree.ts 7-10). -/
structure PrefixPathRec where
  path : List Nat
  support : Nat
deriving DecidableEq

/-- The prefix-path loop of `fromPrefixPaths` (fptree.ts 99-112): prune and
sort every path, then insert it with the path's own support contribution. -/
def ppFold (s : FPTreeState) (pps : List PrefixPathRec) : FPTreeState :=
  pps.foldl (fun acc pp => addItems acc (filterSortItems acc.supports acc.minSupport pp.path) pp.support) s

/-- `FPTree.fromPrefixPaths` (fptree.ts 94-118): as `fromTransactions`, but
each path is inserted with its own support contribution. -/
def fromPrefixPaths (s : FPTreeState) (pps : List PrefixPathRec) : Except String FPTreeState :=
  if s.isInit then .error errMsg
  else
    let s1 := ppFold s pps
    .ok { s1 with headers := getHeaderList s1, isInit := true }

/-- `FPTree._getPrefixPath` (fptree.ts 256-262): collect ancestor items while
the node's parent and grandparent exist, i.e. stop once the parent is the
root (ancestors above a direct child of the root).  Non-root ancestors always
carry an item, so the `getD 0` default is never exercised. -/
def prefixItems (s : FPTreeState) (i : Nat) : Nat → List Nat
  | 0 => []
  | fuel+1 =>
    match parentOf s i with
    | none => []
    | some p =>
      match parentOf s p with
      | none => []
      | some _ => (itemOf s p).getD 0 :: prefixItems s p fuel

/-- `FPTree.getPrefixPath` (fptree.ts 174-183): `NotInitialized` guard, then
the ancestor walk; an empty path yields `undefined` (here `none`). -/
def getPrefixPathNode (s : FPTreeState) (i : Nat) : Except String (Option PrefixPathRec) :=
  if !s.isInit then .error errMsg
  else
    let p := prefixItems s i s.nodes.length
    if p.length == 0 then .ok none
    else .ok (some ⟨p, supportOf s i⟩)

/-- `FPTree._getPrefixPaths` (fptree.ts 240-246): walk the node-link chain,
collecting each node's prefix path.  Chain indices strictly increase, so fuel
`nodes.length` never runs out on well-formed trees. -/
def getPrefixPathsAux (s : FPTreeState) : Nat → Nat → List PrefixPathRec → Except String (List PrefixPathRec)
  | _, 0, acc => .ok acc
  | i, fuel+1, acc =>
    match getPrefixPathNode s i with
    | .error e => .error e
    | .ok pp =>
      let acc2 := match pp with
        | some p => acc ++ [p]
        | none => acc
      match nextOf s i with
      | none => .ok acc2
      | some j => getPrefixPathsAux s j fuel acc2

/-- `FPTree.getPrefixPaths` (fptree.ts 158-164). -/
def getPrefixPaths (s : FPTreeState) (it : Nat) : Except String (List PrefixPathRec) :=
  if !s.isInit then .error errMsg
  else
    match lookupA s.firstInserted it with
    | none => .ok []
    | some start => getPrefixPathsAux s start s.nodes.length []

/-- The support table accumulated by the `onPushingNewItem` callback of
`getConditionalFPTree` (fptree.ts 138-140): every item pushed on a prefix
path contributes that path's originating node support. -/
def condSupports (pps : List PrefixPathRec) : List (Nat × Nat) :=
  pps.foldl (fun mp pp => pp.path.foldl (fun mp i => incA mp i pp.support) mp) []

/-- `FPTree.getConditionalFPTree` (fptree.ts 127-149): absent item gives
`null`; otherwise build a fresh tree from the item's prefix paths and the
accumulated conditional supports, and give `null` if its root is childless.
Note the source performs no `_isInit` check here: on an unbuilt tree
`_firstInserted` is empty and the method returns `null` instead of
throwing. -/
def getConditionalFPTree (s : FPTreeState) (it : Nat) : Except String (Option FPTreeState) :=
  match lookupA s.firstInserted it with
  | none => .ok none
  | some start =>
    match getPrefixPathsAux s start s.nodes.length [] with
    | .error e => .error e
    | .ok pps =>
      match fromPrefixPaths (mkFPTree (condSupports pps) s.minSupport) pps with
      | .error e => .error e
      | .ok t => if (childrenOf t 0).length == 0 then .ok none else .ok (some t)

/-- `FPTree._getSinglePath` (fptree.ts 271-280): descend while every node has
at most one child, collecting the visited children; more than one child gives
`null`.  Child indices strictly exceed their parent's, so fuel `nodes.length`
never runs out on well-formed trees. -/
def singlePathAux (s : FPTreeState) : Nat → List Nat → Nat → Option (List Nat)
  | _, _, 0 => none
  | i, acc, fuel+1 =>
    match nodeAt s i with
    | none => none
    | some nd =>
      match nd.children with
      | [] => some acc
      | [c] => singlePathAux s c (acc ++ [c]) fuel
      | _ => none

/-- `FPTree.getSinglePath` (fptree.ts 202-206). -/
def getSinglePath (s : FPTreeState) : Except String (Option (List Nat)) :=
  if !s.isInit then .error errMsg
  else .ok (singlePathAux s 0 [] s.nodes.length)

/-- `FPTree.isSinglePath` (fptree.ts 190-195): `!this.getSinglePath()` — the
empty array is truthy in JS, so a childless root counts as single-pathed. -/
def isSinglePath (s : FPTreeState) : Except String Bool :=
  if !s.isInit then .error errMsg
  else .ok (singlePathAux s 0 [] s.nodes.length).isSome

/-- An `Itemset<T>` record (fpgrowth.ts 326-329). -/
structure Itemset where
  items : List Nat
  support : Nat
deriving DecidableEq

/-- JS `Math.min(tree.supports[key], prefixSupport)`; an absent key would
give `NaN` in JS and cannot occur for items listed in a built tree's
headers. -/
def jsMin (o : Option Nat) (ps : Nat) : Nat :=
  match o with
  | some v => min v ps
  | none => 0

/-- `FPGrowth._getDistinctItemsCount` (fpgrowth.ts 452-459): counts every
occurrence of an item, duplicates inside one transaction included. -/
def getDistinctItemsCount (ts : List (List Nat)) : List (Nat × Nat) :=
  ts.foldl (fun cnt t => t.foldl (fun cnt i => incA cnt i 1) cnt) []

/-- `FPGrowth._handleSinglePath` as shipped (fpgrowth.ts 425-428): a stub
that returns the empty list (marked TODO in the source). -/
def handleSinglePathStub (singlePath : List Nat) (pre : List Nat) : List Itemset :=
  []

/-- `FPGrowth._fpGrowth` (fpgrowth.ts 391-416).  The single-path shortcut is
commented out in the source (lines 394-395, TODO), so only the general
header recursion runs: for each header item (ascending support) emit the
extended prefix with support `min(supports[item], prefixSupport)` and recurse
into the conditional tree when one exists.  `fuel` bounds the recursion
depth; conditional trees are strictly shallower, so the caller's
`nodes.length` suffices.  A conditional-tree error cannot occur on built
trees and is treated as the absent case. -/
def fpGrowthRec (fuel : Nat) (s : FPTreeState) (ps : Nat) (pre : List Nat) : List Itemset :=
  match fuel with
  | 0 => []
  | fuel+1 =>
    s.headers.foldl (fun acc it =>
      let sup := jsMin (lookupA s.supports it) ps
      let cur := pre ++ [it]
      let acc2 := acc ++ [⟨cur, sup⟩]
      match getConditionalFPTree s it with
      | .ok (some child) => acc2 ++ fpGrowthRec fuel child sup cur
      | _ => acc2) []

/-- `FPGrowth.exec` (fpgrowth.ts 362-381) after the relative-to-absolute
support conversion: first scan for the occurrence counts, build the tree,
and mine it with the transaction count as the initial prefix support. -/
def execAbs (m : Nat) (ts : List (List Nat)) : List Itemset :=
  let sup := getDistinctItemsCount ts
  match fromTransactions (mkFPTree sup m) ts with
  | .ok tree => fpGrowthRec tree.nodes.length tree ts.length []
  | .error _ => []

/-- `FPGrowth.exec` (fpgrowth.ts 362-366): `_support` is converted once per
execution by `Math.ceil(_support * transactions.length)`. -/
def exec (r : ℚ) (ts : List (List Nat)) : List Itemset :=
  execAbs (⌈r * (ts.length : ℚ)⌉).toNat ts

/-- A second `exec` call on the same `FPGrowth` instance: the first call
overwrote the relative `_support` field with the absolute threshold
(fpgrowth.ts 365), which the second call multiplies by the transaction count
and ceils again. -/
def execSecondRun (r : ℚ) (ts : List (List Nat)) : List Itemset :=
  execAbs (⌈((⌈r * (ts.length : ℚ)⌉).toNat : ℚ) * (ts.length : ℚ)⌉).toNat ts

/-- Modelled from the spec: the brute-force reference count — the number of
input transactions containing all of the itemset's items (spec §8), used as
the ground truth the emitted supports are compared against. -/
def specBruteSupport (ts : List (List Nat)) (items : List Nat) : Nat :=
  (ts.filter (fun t => items.all (fun i => t.contains i))).length

/-- An arbitrary sequence of `_addItems` insertions applied to a tree. -/
def insertAll (s : FPTreeState) (l : List (List Nat × Nat)) : FPTreeState :=
  l.foldl (fun acc p => addItems acc p.1 p.2) s

/-- The keys of a JS object modelled as an association list. -/
def keysOf (mp : List (Nat × Nat)) : List Nat := mp.map Prod.fst

/-- The global support value a tree's comparators read for an item. -/
def supVal (s : FPTreeState) (k : Nat) : Nat := (lookupA s.supports k).getD 0

/-- The order the headers list actually realises: ascending global support,
ties in ascending numeric item order. -/
def headerLe (s : FPTreeState) (a b : Nat) : Prop :=
  supVal s a < supVal s b ∨ (supVal s a = supVal s b ∧ a ≤ b)

/-- Arena indices of the nodes carrying item `k`, in index order — indices
are assigned in creation order, so this is also insertion order. -/
def itemIds (s : FPTreeState) (k : Nat) : List Nat :=
  (List.range s.nodes.length).filter (fun i => itemOf s i == some k)

/-- The walk along `nextSameItemNode` links starting at a given node (as a
traversal of the node-link chain would perform); fuel `nodes.length` is
always enough because links go strictly forward. -/
def chainFrom (s : FPTreeState) : Option Nat → Nat → List Nat
  | none, _ => []
  | some _, 0 => []
  | some i, fuel+1 => i :: chainFrom s (nextOf s i) fuel

/-- Structural well-formedness of the arena, maintained by every insertion:
the root exists and has no parent and no item; children point back to their
parent and were created after it; every non-root node is attached to its
parent's child list and carries an item. -/
structure WFA (s : FPTreeState) : Prop where
  root_lt : 0 < s.nodes.length
  root_parent : parentOf s 0 = none
  root_item : itemOf s 0 = none
  child_attached : ∀ i c, c ∈ childrenOf s i → parentOf s c = some i ∧ i < c ∧ c < s.nodes.length
  parent_attached : ∀ i, 0 < i → i < s.nodes.length → ∃ p, parentOf s i = some p ∧ i ∈ childrenOf s p
  nonroot_item : ∀ i, 0 < i → i < s.nodes.length → ∃ k, itemOf s i = some k

/-- The node-link invariant: for every item, `firstInserted` heads and
`lastInserted` tails the index-ordered list of that item's nodes, consecutive
nodes of that list are linked by `nextSameItemNode`, the tail has no link,
and every link goes strictly forward (hence no cycles) between two in-range
nodes of one and the same item. -/
structure LinksInv (s : FPTreeState) : Prop where
  first_eq : ∀ k, lookupA s.firstInserted k = (itemIds s k).head?
  last_eq : ∀ k, lookupA s.lastInserted k = (itemIds s k).getLast?
  chain : ∀ k, List.Chain' (fun a b => nextOf s a = some b) (itemIds s k)
  last_none : ∀ k i, (itemIds s k).getLast? = some i → nextOf s i = none
  link_shape : ∀ i j, nextOf s i = some j → i < j ∧ j < s.nodes.length ∧ itemOf s i = itemOf s j

/-- Sibling uniqueness: no node has two children carrying equal items. -/
def SiblingsOK (s : FPTreeState) : Prop :=
  ∀ i, ((childrenOf s i).map (fun c => itemOf s c)).Nodup

/-- The chain of nodes `_getSinglePath` walks: from node `i`, repeatedly the
unique child, down to a childless node; the collected list excludes `i`
itself and ends at the leaf. -/
inductive SinglePathFrom (s : FPTreeState) : Nat → List Nat → Prop
  | leaf : ∀ i nd, nodeAt s i = some nd → nd.children = [] → SinglePathFrom s i []
  | step : ∀ i nd c rest, nodeAt s i = some nd → nd.children = [c] →
      SinglePathFrom s c rest → SinglePathFrom s i (c :: rest)

/-- A tree produced by one of the two build methods on a fresh constructor
state. -/
def BuiltFrom (t : FPTreeState) : Prop :=
  (∃ sup m ts, fromTransactions (mkFPTree sup m) ts = .ok t) ∨
  (∃ sup m pps, fromPrefixPaths (mkFPTree sup m) pps = .ok t)

/-- What the mining recursion needs of a tree: its minimum support is `m`,
headers name only registered items, and every registered item's global
support (in this tree's own table) meets `m` — the pruning filter guarantees
the latter for everything that was ever inserted. -/
structure MineInv (s : FPTreeState) (m : Nat) : Prop where
  min_eq : s.minSupport = m
  headers_keys : ∀ k, k ∈ s.headers → k ∈ keysOf s.firstInserted
  keys_sup : ∀ k, k ∈ keysOf s.firstInserted → jsGE (lookupA s.supports k) m = true

/-- The node record `new FPNode<T>(item, this)` creates with support `w`
(fpnode.ts 44-46). -/
def newChild (pid it w : Nat) : NodeData := ⟨some it, w, some pid, [], none⟩

/-- The children-list push performed on the parent node (fpnode.ts 48). -/
def appendChildFn (n : Nat) : NodeData → NodeData :=
  fun nd => { nd with children := nd.children ++ [n] }

/-- The node-link assignment `last.nextSameItemNode = child` (fptree.ts 290). -/
def setNextFn (n : Nat) : NodeData → NodeData :=
  fun nd => { nd with nextSameItemNode := some n }

/-- The in-place support increment `child.support += support` (fpnode.ts 53). -/
def addSupportFn (w : Nat) : NodeData → NodeData :=
  fun nd => { nd with support := nd.support + w }

/-- The transaction set of the repository example driver and of spec §8. -/
def specExampleTs : List (List Nat) := [[1,3,4],[2,3,5],[1,2,3,5],[2,5],[1,2,3,5]]

/-- A transaction set with a duplicated item inside one transaction. -/
def dupTs : List (List Nat) := [[1,1],[2]]

/-- The tree built from `dupTs` at absolute threshold 1, exactly as `exec`
would build it. -/
def dupTree : FPTreeState :=
  match fromTransactions (mkFPTree (getDistinctItemsCount dupTs) 1) dupTs with
  | .ok t => t
  | .error _ => mkFPTree [] 0

/-- Two identical transactions, producing a single-pathed tree at
threshold 2. -/
def singlePathTs : List (List Nat) := [[1,2],[1,2]]

/-- The tree built from `singlePathTs` at absolute threshold 2, exactly as
`exec` would build it. -/
def singlePathTree : FPTreeState :=
  match fromTransactions (mkFPTree (getDistinctItemsCount singlePathTs) 2) singlePathTs with
  | .ok t => t
  | .error _ => mkFPTree [] 0

/-- One transaction holding two items of equal support whose numeric order
(2 before 10) disagrees with the canonical string order ("10" before "2"). -/
def tieTs : List (List Nat) := [[2, 10]]

/-- The tree built from `tieTs` at absolute threshold 1. -/
def tieTree : FPTreeState :=
  match fromTransactions (mkFPTree (getDistinctItemsCount tieTs) 1) tieTs with
  | .ok t => t
  | .error _ => mkFPTree [] 0

theorem lookupA_nil (k : Nat) : lookupA [] k = none := rfl

theorem lookupA_cons (p : Nat × Nat) (l : List (Nat × Nat)) (k : Nat) :
    lookupA (p :: l) k = if p.1 = k then some p.2 else lookupA l k := by
  by_cases hp : p.1 = k <;> simp [lookupA, List.find?_cons, hp]

theorem keysOf_nil : keysOf [] = [] := rfl

theorem keysOf_cons (p : Nat × Nat) (l : List (Nat × Nat)) :
    keysOf (p :: l) = p.1 :: keysOf l := rfl

theorem findkey_isSome (m : List (Nat × Nat)) (k : Nat) :
    (m.find? (fun p => p.1 == k)).isSome = true ↔ k ∈ keysOf m := by
  induction m with
  | nil => simp [keysOf]
  | cons p l ih =>
    by_cases hp : p.1 = k
    · simp [List.find?_cons, hp, keysOf_cons]
    · have hp2 : ¬ k = p.1 := fun h => hp h.symm
      simp [List.find?_cons, hp, keysOf_cons, ih, hp2]

theorem lookupA_isSome_iff_mem (m : List (Nat × Nat)) (k : Nat) :
    (lookupA m k).isSome = true ↔ k ∈ keysOf m := by
  rw [← findkey_isSome]
  simp [lookupA]

theorem lookupA_eq_none_iff (m : List (Nat × Nat)) (k : Nat) :
    lookupA m k = none ↔ k ∉ keysOf m := by
  rw [← lookupA_isSome_iff_mem]
  cases h : lookupA m k <;> simp [h]

theorem keysOf_mapset (m : List (Nat × Nat)) (k v : Nat) :
    keysOf (m.map (fun p => if p.1 == k then (k, v) else p)) = keysOf m := by
  induction m with
  | nil => rfl
  | cons p l ih =>
    simp only [beq_iff_eq] at ih ⊢
    simp only [List.map_cons, keysOf_cons]
    by_cases hp : p.1 = k
    · rw [if_pos hp, ih, hp]
    · rw [if_neg hp, ih]

theorem lookupA_mapset_same (m : List (Nat × Nat)) (k v : Nat) (h : k ∈ keysOf m) :
    lookupA (m.map (fun p => if p.1 == k then (k, v) else p)) k = some v := by
  induction m with
  | nil => simp [keysOf] at h
  | cons p l ih =>
    simp only [beq_iff_eq] at ih ⊢
    by_cases hp : p.1 = k
    · rw [List.map_cons, if_pos hp, lookupA_cons, if_pos rfl]
    · have h2 : k ∈ keysOf l := by
        rcases (by simpa [keysOf_cons] using h : k = p.1 ∨ k ∈ keysOf l) with h3 | h3
        · exact absurd h3.symm hp
        · exact h3
      rw [List.map_cons, if_neg hp, lookupA_cons, if_neg hp]
      exact ih h2

theorem lookupA_mapset_other (m : List (Nat × Nat)) (k v k' : Nat) (h : k' ≠ k) :
    lookupA (m.map (fun p => if p.1 == k then (k, v) else p)) k' = lookupA m k' := by
  induction m with
  | nil => rfl
  | cons p l ih =>
    simp only [beq_iff_eq] at ih ⊢
    by_cases hp : p.1 = k
    · subst hp
      rw [List.map_cons, if_pos rfl, lookupA_cons, lookupA_cons]
      rw [if_neg (show ¬((p.1, v).1 = k') from Ne.symm h), if_neg (Ne.symm h)]
      exact ih
    · rw [List.map_cons, if_neg hp, lookupA_cons, lookupA_cons, ih]

theorem lookupA_append_of_not_mem (m l2 : List (Nat × Nat)) (k : Nat)
    (h : k ∉ keysOf m) : lookupA (m ++ l2) k = lookupA l2 k := by
  induction m with
  | nil => rfl
  | cons p l ih =>
    have hp : p.1 ≠ k := fun he => h (by simp [keysOf_cons, he])
    have h2 : k ∉ keysOf l := fun hm => h (by simp [keysOf_cons, hm])
    simp [List.cons_append, lookupA_cons, hp, ih h2]

theorem setA_of_mem (m : List (Nat × Nat)) (k v : Nat) (h : k ∈ keysOf m) :
    setA m k v = m.map (fun p => if p.1 == k then (k, v) else p) := by
  unfold setA
  simp [findkey_isSome m k, h]

theorem setA_of_not_mem (m : List (Nat × Nat)) (k v : Nat) (h : k ∉ keysOf m) :
    setA m k v = m ++ [(k, v)] := by
  unfold setA
  have : ¬ (m.find? (fun p => p.1 == k)).isSome = true := by
    rw [findkey_isSome]; exact h
  simp only [this]
  simp

theorem lookupA_setA_same (m : List (Nat × Nat)) (k v : Nat) :
    lookupA (setA m k v) k = some v := by
  by_cases h : k ∈ keysOf m
  · rw [setA_of_mem m k v h]
    exact lookupA_mapset_same m k v h
  · rw [setA_of_not_mem m k v h, lookupA_append_of_not_mem m _ k h]
    simp [lookupA_cons]

theorem lookupA_setA_other (m : List (Nat × Nat)) (k v k' : Nat) (h : k' ≠ k) :
    lookupA (setA m k v) k' = lookupA m k' := by
  by_cases hm : k ∈ keysOf m
  · rw [setA_of_mem m k v hm]
    exact lookupA_mapset_other m k v k' h
  · rw [setA_of_not_mem m k v hm]
    induction m with
    | nil => simp [lookupA_nil, lookupA_cons, Ne.symm h]
    | cons p l ih =>
      have h2 : k ∉ keysOf l := fun hx => hm (by simp [keysOf_cons, hx])
      by_cases hp : p.1 = k' <;>
        simp [List.cons_append, lookupA_cons, hp, ih h2]

theorem keysOf_setA (m : List (Nat × Nat)) (k v : Nat) :
    keysOf (setA m k v) = if k ∈ keysOf m then keysOf m else keysOf m ++ [k] := by
  by_cases h : k ∈ keysOf m
  · rw [setA_of_mem m k v h, keysOf_mapset, if_pos h]
  · rw [setA_of_not_mem m k v h, if_neg h]
    simp [keysOf]

theorem keysOf_incA (m : List (Nat × Nat)) (k w : Nat) :
    keysOf (incA m k w) = if k ∈ keysOf m then keysOf m else keysOf m ++ [k] := by
  unfold incA
  cases h : lookupA m k <;> rw [keysOf_setA]

theorem lookupA_incA_same (m : List (Nat × Nat)) (k w : Nat) :
    lookupA (incA m k w) k = some ((lookupA m k).getD 0 + w) := by
  unfold incA
  cases h : lookupA m k <;> simp [h, lookupA_setA_same]

theorem lookupA_incA_other (m : List (Nat × Nat)) (k w k' : Nat) (h : k' ≠ k) :
    lookupA (incA m k w) k' = lookupA m k' := by
  unfold incA
  cases hx : lookupA m k <;> exact lookupA_setA_other m k _ k' h

theorem insertBefore_perm (lt : Nat → Nat → Bool) (a : Nat) (l : List Nat) :
    (insertBefore lt a l).Perm (a :: l) := by
  induction l with
  | nil => simp [insertBefore]
  | cons b l ih =>
    unfold insertBefore
    by_cases h : lt a b
    · simp [h]
    · simp only [h, if_neg, Bool.false_eq_true, not_false_iff]
      exact (ih.cons b).trans (List.Perm.swap a b l)

theorem stableSort_perm (lt : Nat → Nat → Bool) (l : List Nat) :
    (stableSort lt l).Perm l := by
  have key : ∀ (l acc : List Nat),
      (l.foldl (fun acc a => insertBefore lt a acc) acc).Perm (acc ++ l) := by
    intro l
    induction l with
    | nil => intro acc; simp
    | cons x l ih =>
      intro acc
      have h1 : (List.foldl (fun acc a => insertBefore lt a acc) (insertBefore lt x acc) l).Perm
          (insertBefore lt x acc ++ l) := ih _
      have h2 : (insertBefore lt x acc ++ l).Perm ((x :: acc) ++ l) :=
        (insertBefore_perm lt x acc).append_right l
      have h3 : ((x :: acc) ++ l).Perm (acc ++ x :: l) := List.perm_middle.symm
      exact (h1.trans h2).trans h3
  simpa using key l []

theorem mem_stableSort (lt : Nat → Nat → Bool) (l : List Nat) (x : Nat) :
    x ∈ stableSort lt l ↔ x ∈ l :=
  (stableSort_perm lt l).mem_iff

theorem specExample_threshold :
    (⌈(2/5 : ℚ) * ((specExampleTs.length : ℚ))⌉).toNat = 2 := by
  norm_num [specExampleTs]
  rfl

theorem specExample_second_threshold :
    (⌈(((⌈(2/5 : ℚ) * ((specExampleTs.length : ℚ))⌉).toNat : ℚ)) * ((specExampleTs.length : ℚ))⌉).toNat = 10 := by
  rw [specExample_threshold]
  norm_num [specExampleTs]
  rfl

theorem dupTs_threshold :
    (⌈(1/2 : ℚ) * ((dupTs.length : ℚ))⌉).toNat = 1 := by
  norm_num [dupTs]

theorem exec_specExample_eq : exec (2/5 : ℚ) specExampleTs = execAbs 2 specExampleTs := by
  unfold exec
  rw [specExample_threshold]

theorem execSecondRun_specExample_eq :
    execSecondRun (2/5 : ℚ) specExampleTs = execAbs 10 specExampleTs := by
  unfold execSecondRun
  rw [specExample_second_threshold]

theorem exec_dupTs_eq : exec (1/2 : ℚ) dupTs = execAbs 1 dupTs := by
  unfold exec
  rw [dupTs_threshold]

/-- C1: the claim fails on the code as universally stated — the emitted
support of an itemset is not always the brute-force count of transactions
containing its items.  On `[[1,1],[2]]` with relative support 1/2 (absolute
threshold ceil(1/2·2) = 1) the procedure emits the itemset [1] with support
2, although only one of the two transactions contains item 1: the duplicated
item of the first transaction is counted twice by `_getDistinctItemsCount`
and inserted twice along one branch by `_addItems`. -/
theorem c1_emitted_support_ne_brute_count :
    Itemset.mk [1] 2 ∈ exec (1/2 : ℚ) dupTs ∧
    specBruteSupport dupTs [1] = 1 ∧ (2 : Nat) ≠ 1 := by
  rw [exec_dupTs_eq]
  exact ⟨by decide, by decide, by decide⟩

/-- C2: the shipped mining procedure never takes the single-path shortcut:
the tree built from `[[1,2],[1,2]]` at threshold 2 is single-pathed (its
path holds the two nodes 1 and 2), yet the `_fpGrowth` shortcut call is
commented out in the source and the shipped `_handleSinglePath` returns the
empty list — not one itemset per non-empty subset of the path as the claim
requires (three itemsets here). -/
theorem c2_shortcut_stubbed :
    fromTransactions (mkFPTree (getDistinctItemsCount singlePathTs) 2) singlePathTs
      = .ok singlePathTree ∧
    isSinglePath singlePathTree = .ok true ∧
    getSinglePath singlePathTree = .ok (some [1, 2]) ∧
    handleSinglePathStub [1, 2] [] = [] ∧
    ([] : List Itemset) ≠ [Itemset.mk [2] 2, Itemset.mk [2, 1] 2, Itemset.mk [1] 2] := by
  exact ⟨rfl, rfl, rfl, rfl, by decide⟩

/-- C5: duplicates inside one transaction are not collapsed to a single
occurrence: scanning `[[1,1]]` gives item 1 a global support count of 2 from
its single transaction (the claim requires exactly 1), and building the tree
from that transaction creates two nodes carrying item 1 (the claim requires
at most one insertion per transaction). -/
theorem c5_duplicates_double_counted :
    lookupA (getDistinctItemsCount [[1, 1]]) 1 = some 2 ∧
    (itemIds dupTree 1).length = 2 ∧ (2 : Nat) ≠ 1 := by
  exact ⟨by decide, by decide, by decide⟩

/-- C7: re-running `exec` on the same `FPGrowth` instance with the same
transactions does not reproduce the first run's itemsets: the first call
overwrites the relative `_support` (2/5) with the absolute threshold 2, so
the second call converts 2·5 and mines at threshold 10, emitting nothing,
while the first run emits 15 itemsets. -/
theorem c7_second_run_differs :
    exec (2/5 : ℚ) specExampleTs ≠ execSecondRun (2/5 : ℚ) specExampleTs ∧
    (exec (2/5 : ℚ) specExampleTs).length = 15 ∧
    execSecondRun (2/5 : ℚ) specExampleTs = [] := by
  rw [exec_specExample_eq, execSecondRun_specExample_eq]
  exact ⟨by decide, by decide, by decide⟩

/-- C4 (counterexample): not every query on an unbuilt tree fails —
`getConditionalFPTree` performs no `_isInit` check, and on a freshly
constructed (never built) tree it returns the `null` sentinel instead of a
`NotInitialized` error. -/
theorem c4_cond_tree_no_error_before_build :
    (mkFPTree [(1, 1)] 1).isInit = false ∧
    getConditionalFPTree (mkFPTree [(1, 1)] 1) 1 = .ok none := by
  exact ⟨rfl, rfl⟩

/-- C6 (counterexample): header ties are not broken by the canonical string
order.  In the tree built from `[[2,10]]` items 2 and 10 both have global
support 1; the canonical string order puts "10" before "2" (`keyLt 10 2`),
so the claim predicts headers `[10, 2]`, but the code yields `[2, 10]`
(ties keep the ascending numeric key order of the `_firstInserted` table). -/
theorem c6_headers_tie_not_string_order :
    fromTransactions (mkFPTree (getDistinctItemsCount tieTs) 1) tieTs = .ok tieTree ∧
    lookupA tieTree.supports 2 = some 1 ∧
    lookupA tieTree.supports 10 = some 1 ∧
    keyLt 10 2 = true ∧
    tieTree.headers = [2, 10] ∧
    tieTree.headers ≠ [10, 2] := by
  exact ⟨rfl, by decide, by decide, by decide, by decide, by decide⟩

theorem length_modifyAt (l : List NodeData) (i : Nat) (f : NodeData → NodeData) :
    (modifyAt l i f).length = l.length := by
  unfold modifyAt
  cases h : l[i]? with
  | none => rfl
  | some a => simp

theorem getElem?_modifyAt (l : List NodeData) (i : Nat) (f : NodeData → NodeData) (j : Nat) :
    (modifyAt l i f)[j]? = if j = i then (l[i]?).map f else l[j]? := by
  unfold modifyAt
  cases h : l[i]? with
  | none =>
    by_cases hj : j = i
    · subst hj; simp [h]
    · simp [hj]
  | some a =>
    have hi : i < l.length := by
      by_contra hc
      rw [List.getElem?_eq_none (Nat.le_of_not_lt hc)] at h
      exact Option.noConfusion h
    by_cases hj : j = i
    · subst hj; simp [List.getElem?_set_eq hi, h]
    · simp [List.getElem?_set_ne (fun he => hj he.symm), hj]

theorem upsertChild_found (s : FPTreeState) (pid it w cid : Nat)
    (hf : getChildId s pid it = some cid) :
    (upsertChild s pid it w).2 = cid ∧
    (upsertChild s pid it w).1 =
      { s with nodes := modifyAt s.nodes cid (fun nd => { nd with support := nd.support + w }) } := by
  unfold upsertChild
  rw [hf]
  exact ⟨rfl, rfl⟩

theorem upsertChild_found_nodeAt (s : FPTreeState) (pid it w cid : Nat)
    (hf : getChildId s pid it = some cid) (j : Nat) :
    nodeAt ((upsertChild s pid it w).1) j =
      if j = cid then (nodeAt s cid).map (fun nd => { nd with support := nd.support + w })
      else nodeAt s j := by
  rw [(upsertChild_found s pid it w cid hf).2]
  show (modifyAt s.nodes cid _)[j]? = _
  rw [getElem?_modifyAt]
  rfl

theorem upsertChild_found_maps (s : FPTreeState) (pid it w cid : Nat)
    (hf : getChildId s pid it = some cid) :
    (upsertChild s pid it w).1.firstInserted = s.firstInserted ∧
    (upsertChild s pid it w).1.lastInserted = s.lastInserted ∧
    (upsertChild s pid it w).1.supports = s.supports ∧
    (upsertChild s pid it w).1.minSupport = s.minSupport ∧
    (upsertChild s pid it w).1.headers = s.headers ∧
    (upsertChild s pid it w).1.isInit = s.isInit ∧
    (upsertChild s pid it w).1.nodes.length = s.nodes.length := by
  rw [(upsertChild_found s pid it w cid hf).2]
  exact ⟨rfl, rfl, rfl, rfl, rfl, rfl, length_modifyAt s.nodes cid _⟩

theorem upsertChild_create_snd (s : FPTreeState) (pid it w : Nat)
    (hf : getChildId s pid it = none) :
    (upsertChild s pid it w).2 = s.nodes.length := by
  unfold upsertChild
  rw [hf]

theorem updateLastInserted_nodes (s : FPTreeState) (k cid : Nat) :
    (updateLastInserted s k cid).nodes =
      match lookupA s.lastInserted k with
      | some lastId => modifyAt s.nodes lastId (fun nd => { nd with nextSameItemNode := some cid })
      | none => s.nodes := by
  unfold updateLastInserted
  cases lookupA s.lastInserted k <;> rfl

theorem updateLastInserted_last (s : FPTreeState) (k cid : Nat) :
    (updateLastInserted s k cid).lastInserted = setA s.lastInserted k cid := by
  unfold updateLastInserted
  cases lookupA s.lastInserted k <;> rfl

theorem updateLastInserted_misc (s : FPTreeState) (k cid : Nat) :
    (updateLastInserted s k cid).firstInserted = s.firstInserted ∧
    (updateLastInserted s k cid).supports = s.supports ∧
    (updateLastInserted s k cid).minSupport = s.minSupport ∧
    (updateLastInserted s k cid).headers = s.headers ∧
    (updateLastInserted s k cid).isInit = s.isInit := by
  unfold updateLastInserted
  cases lookupA s.lastInserted k <;> exact ⟨rfl, rfl, rfl, rfl, rfl⟩

theorem updateFirstInserted_first (s : FPTreeState) (k cid : Nat) :
    (updateFirstInserted s k cid).firstInserted =
      match lookupA s.firstInserted k with
      | some _ => s.firstInserted
      | none => setA s.firstInserted k cid := by
  unfold updateFirstInserted
  cases lookupA s.firstInserted k <;> rfl

theorem updateFirstInserted_misc (s : FPTreeState) (k cid : Nat) :
    (updateFirstInserted s k cid).nodes = s.nodes ∧
    (updateFirstInserted s k cid).lastInserted = s.lastInserted ∧
    (updateFirstInserted s k cid).supports = s.supports ∧
    (updateFirstInserted s k cid).minSupport = s.minSupport ∧
    (updateFirstInserted s k cid).headers = s.headers ∧
    (updateFirstInserted s k cid).isInit = s.isInit := by
  unfold updateFirstInserted
  cases lookupA s.firstInserted k <;> exact ⟨rfl, rfl, rfl, rfl, rfl, rfl⟩

theorem getElem?_concat (l : List NodeData) (c : NodeData) (j : Nat) :
    (l ++ [c])[j]? = if j = l.length then some c else l[j]? := by
  by_cases hj : j = l.length
  · subst hj; simp
  · by_cases hlt : j < l.length
    · rw [List.getElem?_append_left hlt, if_neg hj]
    · rw [if_neg hj, List.getElem?_eq_none (l := l ++ [c]) (by simp; omega),
        List.getElem?_eq_none (by omega)]

theorem updateLastInserted_nodes_none (s : FPTreeState) (k cid : Nat)
    (h : lookupA s.lastInserted k = none) :
    (updateLastInserted s k cid).nodes = s.nodes := by
  unfold updateLastInserted
  rw [h]

theorem updateLastInserted_nodes_some (s : FPTreeState) (k cid L : Nat)
    (h : lookupA s.lastInserted k = some L) :
    (updateLastInserted s k cid).nodes = modifyAt s.nodes L (setNextFn cid) := by
  unfold updateLastInserted
  rw [h]
  rfl

theorem upsertChild_create_nodes_nolast (s : FPTreeState) (pid it w : Nat)
    (hf : getChildId s pid it = none) (hlast : lookupA s.lastInserted it = none) :
    (upsertChild s pid it w).1.nodes =
      modifyAt (s.nodes ++ [newChild pid it w]) pid (appendChildFn s.nodes.length) := by
  unfold upsertChild
  rw [hf]
  show (updateFirstInserted (updateLastInserted _ it _) it _).nodes = _
  rw [(updateFirstInserted_misc _ it _).1, updateLastInserted_nodes]
  simp only [hlast]
  rfl

theorem upsertChild_create_nodes_last (s : FPTreeState) (pid it w L : Nat)
    (hf : getChildId s pid it = none) (hlast : lookupA s.lastInserted it = some L) :
    (upsertChild s pid it w).1.nodes =
      modifyAt (modifyAt (s.nodes ++ [newChild pid it w]) pid (appendChildFn s.nodes.length))
        L (setNextFn s.nodes.length) := by
  unfold upsertChild
  rw [hf]
  show (updateFirstInserted (updateLastInserted _ it _) it _).nodes = _
  rw [(updateFirstInserted_misc _ it _).1, updateLastInserted_nodes]
  simp only [hlast]
  rfl

theorem upsertChild_create_first (s : FPTreeState) (pid it w : Nat)
    (hf : getChildId s pid it = none) :
    (upsertChild s pid it w).1.firstInserted =
      match lookupA s.firstInserted it with
      | some _ => s.firstInserted
      | none => setA s.firstInserted it s.nodes.length := by
  unfold upsertChild
  rw [hf]
  show (updateFirstInserted (updateLastInserted _ it _) it _).firstInserted = _
  rw [updateFirstInserted_first, (updateLastInserted_misc _ it _).1]

theorem upsertChild_create_last (s : FPTreeState) (pid it w : Nat)
    (hf : getChildId s pid it = none) :
    (upsertChild s pid it w).1.lastInserted = setA s.lastInserted it s.nodes.length := by
  unfold upsertChild
  rw [hf]
  show (updateFirstInserted (updateLastInserted _ it _) it _).lastInserted = _
  rw [(updateFirstInserted_misc _ it _).2.1, updateLastInserted_last]

theorem upsertChild_create_misc (s : FPTreeState) (pid it w : Nat)
    (hf : getChildId s pid it = none) :
    (upsertChild s pid it w).1.supports = s.supports ∧
    (upsertChild s pid it w).1.minSupport = s.minSupport ∧
    (upsertChild s pid it w).1.headers = s.headers ∧
    (upsertChild s pid it w).1.isInit = s.isInit := by
  unfold upsertChild
  rw [hf]
  show ((updateFirstInserted (updateLastInserted _ it _) it _).supports = _) ∧ _
  rw [(updateFirstInserted_misc _ it _).2.2.1, (updateFirstInserted_misc _ it _).2.2.2.1,
    (updateFirstInserted_misc _ it _).2.2.2.2.1, (updateFirstInserted_misc _ it _).2.2.2.2.2,
    (updateLastInserted_misc _ it _).2.1, (updateLastInserted_misc _ it _).2.2.1,
    (updateLastInserted_misc _ it _).2.2.2.1, (updateLastInserted_misc _ it _).2.2.2.2]
  exact ⟨rfl, rfl, rfl, rfl⟩

theorem upsertChild_create_length (s : FPTreeState) (pid it w : Nat)
    (hf : getChildId s pid it = none) :
    (upsertChild s pid it w).1.nodes.length = s.nodes.length + 1 := by
  cases hlast : lookupA s.lastInserted it with
  | none =>
    rw [upsertChild_create_nodes_nolast s pid it w hf hlast, length_modifyAt]
    simp
  | some L =>
    rw [upsertChild_create_nodes_last s pid it w L hf hlast, length_modifyAt, length_modifyAt]
    simp

theorem map_field_modifyAt {β : Type} (g : NodeData → β) (l : List NodeData) (i : Nat)
    (f : NodeData → NodeData) (hf : ∀ nd, g (f nd) = g nd) (j : Nat) :
    ((modifyAt l i f)[j]?).map g = (l[j]?).map g := by
  rw [getElem?_modifyAt]
  by_cases hj : j = i
  · subst hj; cases l[j]? <;> simp [hf]
  · rw [if_neg hj]

theorem itemOf_eq_map (s : FPTreeState) (j : Nat) :
    itemOf s j = ((s.nodes[j]?).map NodeData.item).getD none := by
  unfold itemOf nodeAt
  cases s.nodes[j]? <;> rfl

theorem parentOf_eq_map (s : FPTreeState) (j : Nat) :
    parentOf s j = ((s.nodes[j]?).map NodeData.parent).getD none := by
  unfold parentOf nodeAt
  cases s.nodes[j]? <;> rfl

theorem childrenOf_eq_map (s : FPTreeState) (j : Nat) :
    childrenOf s j = ((s.nodes[j]?).map NodeData.children).getD [] := by
  unfold childrenOf nodeAt
  cases s.nodes[j]? <;> rfl

theorem nextOf_eq_map (s : FPTreeState) (j : Nat) :
    nextOf s j = ((s.nodes[j]?).map NodeData.nextSameItemNode).getD none := by
  unfold nextOf nodeAt
  cases s.nodes[j]? <;> rfl

theorem supportOf_eq_map (s : FPTreeState) (j : Nat) :
    supportOf s j = ((s.nodes[j]?).map NodeData.support).getD 0 := by
  unfold supportOf nodeAt
  cases s.nodes[j]? <;> rfl

theorem upsertChild_create_itemOf (s : FPTreeState) (pid it w : Nat)
    (hf : getChildId s pid it = none) (j : Nat) :
    itemOf ((upsertChild s pid it w).1) j =
      if j = s.nodes.length then some it else itemOf s j := by
  rw [itemOf_eq_map]
  cases hlast : lookupA s.lastInserted it with
  | none =>
    rw [upsertChild_create_nodes_nolast s pid it w hf hlast,
      map_field_modifyAt NodeData.item _ pid (appendChildFn s.nodes.length) (fun nd => rfl) j,
      getElem?_concat]
    by_cases hj : j = s.nodes.length
    · simp [hj, newChild]
    · rw [if_neg hj, if_neg hj, itemOf_eq_map]
  | some L =>
    rw [upsertChild_create_nodes_last s pid it w L hf hlast,
      map_field_modifyAt NodeData.item _ L (setNextFn s.nodes.length) (fun nd => rfl) j,
      map_field_modifyAt NodeData.item _ pid (appendChildFn s.nodes.length) (fun nd => rfl) j,
      getElem?_concat]
    by_cases hj : j = s.nodes.length
    · simp [hj, newChild]
    · rw [if_neg hj, if_neg hj, itemOf_eq_map]

theorem upsertChild_create_parentOf (s : FPTreeState) (pid it w : Nat)
    (hf : getChildId s pid it = none) (j : Nat) :
    parentOf ((upsertChild s pid it w).1) j =
      if j = s.nodes.length then some pid else parentOf s j := by
  rw [parentOf_eq_map]
  cases hlast : lookupA s.lastInserted it with
  | none =>
    rw [upsertChild_create_nodes_nolast s pid it w hf hlast,
      map_field_modifyAt NodeData.parent _ pid (appendChildFn s.nodes.length) (fun nd => rfl) j,
      getElem?_concat]
    by_cases hj : j = s.nodes.length
    · simp [hj, newChild]
    · rw [if_neg hj, if_neg hj, parentOf_eq_map]
  | some L =>
    rw [upsertChild_create_nodes_last s pid it w L hf hlast,
      map_field_modifyAt NodeData.parent _ L (setNextFn s.nodes.length) (fun nd => rfl) j,
      map_field_modifyAt NodeData.parent _ pid (appendChildFn s.nodes.length) (fun nd => rfl) j,
      getElem?_concat]
    by_cases hj : j = s.nodes.length
    · simp [hj, newChild]
    · rw [if_neg hj, if_neg hj, parentOf_eq_map]

theorem upsertChild_create_supportOf (s : FPTreeState) (pid it w : Nat)
    (hf : getChildId s pid it = none) (j : Nat) :
    supportOf ((upsertChild s pid it w).1) j =
      if j = s.nodes.length then w else supportOf s j := by
  rw [supportOf_eq_map]
  cases hlast : lookupA s.lastInserted it with
  | none =>
    rw [upsertChild_create_nodes_nolast s pid it w hf hlast,
      map_field_modifyAt NodeData.support _ pid (appendChildFn s.nodes.length) (fun nd => rfl) j,
      getElem?_concat]
    by_cases hj : j = s.nodes.length
    · simp [hj, newChild]
    · rw [if_neg hj, if_neg hj, supportOf_eq_map]
  | some L =>
    rw [upsertChild_create_nodes_last s pid it w L hf hlast,
      map_field_modifyAt NodeData.support _ L (setNextFn s.nodes.length) (fun nd => rfl) j,
      map_field_modifyAt NodeData.support _ pid (appendChildFn s.nodes.length) (fun nd => rfl) j,
      getElem?_concat]
    by_cases hj : j = s.nodes.length
    · simp [hj, newChild]
    · rw [if_neg hj, if_neg hj, supportOf_eq_map]

theorem upsertChild_create_childrenOf (s : FPTreeState) (pid it w : Nat)
    (hf : getChildId s pid it = none) (hp : pid < s.nodes.length) (j : Nat) :
    childrenOf ((upsertChild s pid it w).1) j =
      if j = pid then childrenOf s pid ++ [s.nodes.length]
      else if j = s.nodes.length then [] else childrenOf s j := by
  obtain ⟨pnd, hpnd⟩ : ∃ nd, s.nodes[pid]? = some nd := by
    rw [List.getElem?_eq_getElem hp]; exact ⟨_, rfl⟩
  have key : ∀ (l : List NodeData), l = modifyAt (s.nodes ++ [newChild pid it w]) pid
        (appendChildFn s.nodes.length) →
      ((l[j]?).map NodeData.children).getD [] =
        (if j = pid then childrenOf s pid ++ [s.nodes.length]
         else if j = s.nodes.length then [] else childrenOf s j) := by
    intro l hl
    subst hl
    rw [getElem?_modifyAt]
    by_cases hj : j = pid
    · subst hj
      rw [if_pos rfl, if_pos rfl, getElem?_concat, if_neg (by omega), hpnd]
      rw [childrenOf_eq_map, hpnd]
      rfl
    · rw [if_neg hj, if_neg hj, getElem?_concat]
      by_cases hj2 : j = s.nodes.length
      · rw [if_pos hj2, if_pos hj2]
        rfl
      · rw [if_neg hj2, if_neg hj2, childrenOf_eq_map]
  rw [childrenOf_eq_map]
  cases hlast : lookupA s.lastInserted it with
  | none =>
    rw [upsertChild_create_nodes_nolast s pid it w hf hlast]
    exact key _ rfl
  | some L =>
    rw [upsertChild_create_nodes_last s pid it w L hf hlast,
      map_field_modifyAt NodeData.children _ L (setNextFn s.nodes.length) (fun nd => rfl) j]
    exact key _ rfl

theorem upsertChild_create_nextOf (s : FPTreeState) (pid it w : Nat)
    (hf : getChildId s pid it = none)
    (hL : ∀ L, lookupA s.lastInserted it = some L → L < s.nodes.length) (j : Nat) :
    nextOf ((upsertChild s pid it w).1) j =
      if lookupA s.lastInserted it = some j then some s.nodes.length
      else if j = s.nodes.length then none else nextOf s j := by
  rw [nextOf_eq_map]
  cases hlast : lookupA s.lastInserted it with
  | none =>
    rw [upsertChild_create_nodes_nolast s pid it w hf hlast,
      map_field_modifyAt NodeData.nextSameItemNode _ pid (appendChildFn s.nodes.length)
        (fun nd => rfl) j,
      getElem?_concat, if_neg (show ¬((none : Option Nat) = some j) from fun h => Option.noConfusion h)]
    by_cases hj : j = s.nodes.length
    · simp [hj, newChild]
    · rw [if_neg hj, if_neg hj, nextOf_eq_map]
  | some L =>
    have hLlt : L < s.nodes.length := hL L hlast
    rw [upsertChild_create_nodes_last s pid it w L hf hlast, getElem?_modifyAt]
    by_cases hj : j = L
    · subst hj
      rw [if_pos rfl, if_pos rfl]
      obtain ⟨nd, hnd⟩ : ∃ nd,
          (modifyAt (s.nodes ++ [newChild pid it w]) pid (appendChildFn s.nodes.length))[j]?
            = some nd := by
        rw [List.getElem?_eq_getElem (show j < _ by
          rw [length_modifyAt]
          simp only [List.length_append, List.length_cons, List.length_nil]
          omega)]
        exact ⟨_, rfl⟩
      rw [hnd]
      rfl
    · rw [if_neg hj,
        if_neg (show ¬((some L : Option Nat) = some j) from fun h => hj (Option.some.inj h).symm)]
      rw [map_field_modifyAt NodeData.nextSameItemNode _ pid (appendChildFn s.nodes.length)
          (fun nd => rfl) j,
        getElem?_concat]
      by_cases hj2 : j = s.nodes.length
      · simp [hj2, newChild]
      · rw [if_neg hj2, if_neg hj2, nextOf_eq_map]

theorem upsertChild_found_itemOf (s : FPTreeState) (pid it w cid : Nat)
    (hf : getChildId s pid it = some cid) (j : Nat) :
    itemOf ((upsertChild s pid it w).1) j = itemOf s j := by
  unfold itemOf
  rw [upsertChild_found_nodeAt s pid it w cid hf j]
  by_cases hj : j = cid
  · subst hj
    rw [if_pos rfl]
    cases nodeAt s j <;> rfl
  · rw [if_neg hj]

theorem upsertChild_found_parentOf (s : FPTreeState) (pid it w cid : Nat)
    (hf : getChildId s pid it = some cid) (j : Nat) :
    parentOf ((upsertChild s pid it w).1) j = parentOf s j := by
  unfold parentOf
  rw [upsertChild_found_nodeAt s pid it w cid hf j]
  by_cases hj : j = cid
  · subst hj
    rw [if_pos rfl]
    cases nodeAt s j <;> rfl
  · rw [if_neg hj]

theorem upsertChild_found_childrenOf (s : FPTreeState) (pid it w cid : Nat)
    (hf : getChildId s pid it = some cid) (j : Nat) :
    childrenOf ((upsertChild s pid it w).1) j = childrenOf s j := by
  unfold childrenOf
  rw [upsertChild_found_nodeAt s pid it w cid hf j]
  by_cases hj : j = cid
  · subst hj
    rw [if_pos rfl]
    cases nodeAt s j <;> rfl
  · rw [if_neg hj]

theorem upsertChild_found_nextOf (s : FPTreeState) (pid it w cid : Nat)
    (hf : getChildId s pid it = some cid) (j : Nat) :
    nextOf ((upsertChild s pid it w).1) j = nextOf s j := by
  unfold nextOf
  rw [upsertChild_found_nodeAt s pid it w cid hf j]
  by_cases hj : j = cid
  · subst hj
    rw [if_pos rfl]
    cases nodeAt s j <;> rfl
  · rw [if_neg hj]

theorem getChildId_mem (s : FPTreeState) (pid it cid : Nat)
    (hf : getChildId s pid it = some cid) :
    cid ∈ childrenOf s pid ∧ itemOf s cid = some it := by
  unfold getChildId at hf
  refine ⟨List.mem_of_find?_eq_some hf, ?_⟩
  have := List.find?_some hf
  simpa using this

theorem getChildId_none (s : FPTreeState) (pid it : Nat)
    (hf : getChildId s pid it = none) :
    ∀ c ∈ childrenOf s pid, itemOf s c ≠ some it := by
  intro c hc he
  unfold getChildId at hf
  have := List.find?_eq_none.mp hf c hc
  simp [he] at this

theorem WFA_mk (sup : List (Nat × Nat)) (m : Nat) : WFA (mkFPTree sup m) := by
  refine ⟨by simp [mkFPTree], rfl, rfl, ?_, ?_, ?_⟩
  · intro i c hc
    have : childrenOf (mkFPTree sup m) i = [] := by
      unfold childrenOf nodeAt mkFPTree
      match i with
      | 0 => rfl
      | j+1 => rfl
    rw [this] at hc
    exact absurd hc (List.not_mem_nil c)
  · intro i hi hlen
    simp [mkFPTree] at hlen
    omega
  · intro i hi hlen
    simp [mkFPTree] at hlen
    omega

theorem WFA_of_nodes_eq (s t : FPTreeState) (h : t.nodes = s.nodes) (hw : WFA s) : WFA t := by
  have hi : ∀ j, itemOf t j = itemOf s j := by intro j; unfold itemOf nodeAt; rw [h]
  have hpp : ∀ j, parentOf t j = parentOf s j := by intro j; unfold parentOf nodeAt; rw [h]
  have hc : ∀ j, childrenOf t j = childrenOf s j := by intro j; unfold childrenOf nodeAt; rw [h]
  refine ⟨?_, ?_, ?_, ?_, ?_, ?_⟩
  · rw [h]; exact hw.root_lt
  · rw [hpp]; exact hw.root_parent
  · rw [hi]; exact hw.root_item
  · intro i c hcm
    rw [hc] at hcm
    rw [hpp, h]
    exact hw.child_attached i c hcm
  · intro i hi0 hilen
    rw [h] at hilen
    obtain ⟨p, hp1, hp2⟩ := hw.parent_attached i hi0 hilen
    exact ⟨p, by rw [hpp]; exact hp1, by rw [hc]; exact hp2⟩
  · intro i hi0 hilen
    rw [h] at hilen
    rw [hi]
    exact hw.nonroot_item i hi0 hilen

theorem WFA_upsert (s : FPTreeState) (pid it w : Nat) (hw : WFA s)
    (hp : pid < s.nodes.length) :
    WFA (upsertChild s pid it w).1 ∧
    (upsertChild s pid it w).2 < (upsertChild s pid it w).1.nodes.length := by
  cases hf : getChildId s pid it with
  | some cid =>
    have hmem := getChildId_mem s pid it cid hf
    have hbound := (hw.child_attached pid cid hmem.1).2.2
    have hmisc := upsertChild_found_maps s pid it w cid hf
    constructor
    · refine ⟨?_, ?_, ?_, ?_, ?_, ?_⟩
      · rw [hmisc.2.2.2.2.2.2]; exact hw.root_lt
      · rw [upsertChild_found_parentOf s pid it w cid hf]; exact hw.root_parent
      · rw [upsertChild_found_itemOf s pid it w cid hf]; exact hw.root_item
      · intro i c hcm
        rw [upsertChild_found_childrenOf s pid it w cid hf] at hcm
        rw [upsertChild_found_parentOf s pid it w cid hf, hmisc.2.2.2.2.2.2]
        exact hw.child_attached i c hcm
      · intro i hi0 hilen
        rw [hmisc.2.2.2.2.2.2] at hilen
        obtain ⟨p, hp1, hp2⟩ := hw.parent_attached i hi0 hilen
        refine ⟨p, ?_, ?_⟩
        · rw [upsertChild_found_parentOf s pid it w cid hf]; exact hp1
        · rw [upsertChild_found_childrenOf s pid it w cid hf]; exact hp2
      · intro i hi0 hilen
        rw [hmisc.2.2.2.2.2.2] at hilen
        rw [upsertChild_found_itemOf s pid it w cid hf]
        exact hw.nonroot_item i hi0 hilen
    · rw [(upsertChild_found s pid it w cid hf).1, hmisc.2.2.2.2.2.2]
      exact hbound
  | none =>
    have hlen := upsertChild_create_length s pid it w hf
    have hito := upsertChild_create_itemOf s pid it w hf
    have hpo := upsertChild_create_parentOf s pid it w hf
    have hco := upsertChild_create_childrenOf s pid it w hf hp
    have hn0 : (0:Nat) < s.nodes.length := hw.root_lt
    constructor
    · refine ⟨?_, ?_, ?_, ?_, ?_, ?_⟩
      · rw [hlen]; omega
      · rw [hpo 0, if_neg (by omega)]; exact hw.root_parent
      · rw [hito 0, if_neg (by omega)]; exact hw.root_item
      · intro i c hcm
        rw [hco i] at hcm
        by_cases hipid : i = pid
        · subst hipid
          rw [if_pos rfl] at hcm
          rcases List.mem_append.mp hcm with hold | hnew
          · have h3 := hw.child_attached i c hold
            refine ⟨?_, h3.2.1, by omega⟩
            rw [hpo c, if_neg (by omega)]
            exact h3.1
          · have hc2 : c = s.nodes.length := List.mem_singleton.mp hnew
            refine ⟨?_, by omega, by omega⟩
            rw [hpo c, if_pos hc2]
        · rw [if_neg hipid] at hcm
          by_cases hilen : i = s.nodes.length
          · rw [if_pos hilen] at hcm
            exact absurd hcm (List.not_mem_nil c)
          · rw [if_neg hilen] at hcm
            have h3 := hw.child_attached i c hcm
            refine ⟨?_, h3.2.1, by omega⟩
            rw [hpo c, if_neg (by omega)]
            exact h3.1
      · intro i hi0 hilen
        rw [hlen] at hilen
        by_cases hi : i = s.nodes.length
        · refine ⟨pid, ?_, ?_⟩
          · rw [hpo i, if_pos hi]
          · rw [hco pid, if_pos rfl]
            subst hi
            simp
        · obtain ⟨p, hp1, hp2⟩ := hw.parent_attached i hi0 (by omega)
          refine ⟨p, ?_, ?_⟩
          · rw [hpo i, if_neg hi]; exact hp1
          · rw [hco p]
            by_cases hppid : p = pid
            · subst hppid
              rw [if_pos rfl]
              exact List.mem_append.mpr (Or.inl hp2)
            · rw [if_neg hppid]
              have hplen : p < s.nodes.length := by
                have := hw.child_attached p i hp2
                omega
              rw [if_neg (by omega)]
              exact hp2
      · intro i hi0 hilen
        rw [hlen] at hilen
        by_cases hi : i = s.nodes.length
        · exact ⟨it, by rw [hito i, if_pos hi]⟩
        · obtain ⟨k, hk⟩ := hw.nonroot_item i hi0 (by omega)
          exact ⟨k, by rw [hito i, if_neg hi]; exact hk⟩
    · rw [upsertChild_create_snd s pid it w hf, hlen]
      omega

theorem WFA_foldUpsert (w : Nat) : ∀ (items : List Nat) (s : FPTreeState) (cur : Nat),
    WFA s → cur < s.nodes.length →
    WFA ((items.foldl (fun acc it => upsertChild acc.1 acc.2 it w) (s, cur)).1) ∧
    ((items.foldl (fun acc it => upsertChild acc.1 acc.2 it w) (s, cur)).2 <
      ((items.foldl (fun acc it => upsertChild acc.1 acc.2 it w) (s, cur)).1).nodes.length) := by
  intro items
  induction items with
  | nil => intro s cur hw hc; exact ⟨hw, hc⟩
  | cons x items ih =>
    intro s cur hw hc
    have h1 := WFA_upsert s cur x w hw hc
    exact ih (upsertChild s cur x w).1 (upsertChild s cur x w).2 h1.1 h1.2

theorem WFA_addItems (s : FPTreeState) (items : List Nat) (w : Nat) (hw : WFA s) :
    WFA (addItems s items w) := by
  unfold addItems
  exact (WFA_foldUpsert w items s 0 hw hw.root_lt).1

theorem upsertChild_misc (s : FPTreeState) (pid it w : Nat) :
    (upsertChild s pid it w).1.supports = s.supports ∧
    (upsertChild s pid it w).1.minSupport = s.minSupport ∧
    (upsertChild s pid it w).1.headers = s.headers ∧
    (upsertChild s pid it w).1.isInit = s.isInit := by
  cases hf : getChildId s pid it with
  | some cid =>
    have h := upsertChild_found_maps s pid it w cid hf
    exact ⟨h.2.2.1, h.2.2.2.1, h.2.2.2.2.1, h.2.2.2.2.2.1⟩
  | none => exact upsertChild_create_misc s pid it w hf

theorem foldUpsert_misc (w : Nat) : ∀ (items : List Nat) (s : FPTreeState) (cur : Nat),
    ((items.foldl (fun acc it => upsertChild acc.1 acc.2 it w) (s, cur)).1).supports = s.supports ∧
    ((items.foldl (fun acc it => upsertChild acc.1 acc.2 it w) (s, cur)).1).minSupport = s.minSupport ∧
    ((items.foldl (fun acc it => upsertChild acc.1 acc.2 it w) (s, cur)).1).headers = s.headers ∧
    ((items.foldl (fun acc it => upsertChild acc.1 acc.2 it w) (s, cur)).1).isInit = s.isInit := by
  intro items
  induction items with
  | nil => intro s cur; exact ⟨rfl, rfl, rfl, rfl⟩
  | cons x items ih =>
    intro s cur
    have h1 := upsertChild_misc s cur x w
    have h2 := ih (upsertChild s cur x w).1 (upsertChild s cur x w).2
    exact ⟨h2.1.trans h1.1, h2.2.1.trans h1.2.1, h2.2.2.1.trans h1.2.2.1, h2.2.2.2.trans h1.2.2.2⟩

theorem addItems_misc (s : FPTreeState) (items : List Nat) (w : Nat) :
    (addItems s items w).supports = s.supports ∧
    (addItems s items w).minSupport = s.minSupport ∧
    (addItems s items w).headers = s.headers ∧
    (addItems s items w).isInit = s.isInit := by
  unfold addItems
  exact foldUpsert_misc w items s 0

theorem upsert_first_keys (s : FPTreeState) (pid it w : Nat) :
    ∀ k, k ∈ keysOf (upsertChild s pid it w).1.firstInserted →
      k ∈ keysOf s.firstInserted ∨ k = it := by
  intro k hk
  cases hf : getChildId s pid it with
  | some cid =>
    rw [(upsertChild_found_maps s pid it w cid hf).1] at hk
    exact Or.inl hk
  | none =>
    rw [upsertChild_create_first s pid it w hf] at hk
    cases hfi : lookupA s.firstInserted it with
    | some f0 => rw [hfi] at hk; exact Or.inl hk
    | none =>
      rw [hfi] at hk
      rw [keysOf_setA] at hk
      by_cases hm : it ∈ keysOf s.firstInserted
      · rw [if_pos hm] at hk; exact Or.inl hk
      · rw [if_neg hm] at hk
        rcases List.mem_append.mp hk with h | h
        · exact Or.inl h
        · exact Or.inr (List.mem_singleton.mp h)

theorem foldUpsert_first_keys (w : Nat) : ∀ (items : List Nat) (s : FPTreeState) (cur : Nat),
    ∀ k, k ∈ keysOf ((items.foldl (fun acc it => upsertChild acc.1 acc.2 it w) (s, cur)).1).firstInserted →
      k ∈ keysOf s.firstInserted ∨ k ∈ items := by
  intro items
  induction items with
  | nil => intro s cur k hk; exact Or.inl hk
  | cons x items ih =>
    intro s cur k hk
    rcases ih (upsertChild s cur x w).1 (upsertChild s cur x w).2 k hk with h | h
    · rcases upsert_first_keys s cur x w k h with h2 | h2
      · exact Or.inl h2
      · exact Or.inr (by rw [h2]; exact List.mem_cons_self x items)
    · exact Or.inr (List.mem_cons_of_mem x h)

theorem addItems_first_keys (s : FPTreeState) (items : List Nat) (w : Nat) :
    ∀ k, k ∈ keysOf (addItems s items w).firstInserted →
      k ∈ keysOf s.firstInserted ∨ k ∈ items := by
  unfold addItems
  exact foldUpsert_first_keys w items s 0

theorem fromTransactions_ok (s : FPTreeState) (ts : List (List Nat)) (t : FPTreeState)
    (h : fromTransactions s ts = .ok t) :
    s.isInit = false ∧
    t = { txFold s ts with headers := getHeaderList (txFold s ts), isInit := true } := by
  unfold fromTransactions at h
  by_cases hi : s.isInit
  · rw [if_pos hi] at h
    exact absurd h (fun hc => Except.noConfusion hc)
  · rw [if_neg hi] at h
    exact ⟨by simpa using hi, (Except.ok.inj h).symm⟩

theorem fromPrefixPaths_ok (s : FPTreeState) (pps : List PrefixPathRec) (t : FPTreeState)
    (h : fromPrefixPaths s pps = .ok t) :
    s.isInit = false ∧
    t = { ppFold s pps with headers := getHeaderList (ppFold s pps), isInit := true } := by
  unfold fromPrefixPaths at h
  by_cases hi : s.isInit
  · rw [if_pos hi] at h
    exact absurd h (fun hc => Except.noConfusion hc)
  · rw [if_neg hi] at h
    exact ⟨by simpa using hi, (Except.ok.inj h).symm⟩

theorem txFold_WFA (ts : List (List Nat)) : ∀ (s : FPTreeState), WFA s → WFA (txFold s ts) := by
  induction ts with
  | nil => intro s hw; exact hw
  | cons tx ts ih =>
    intro s hw
    exact ih (addItems s (filterSortItems s.supports s.minSupport tx) 1)
      (WFA_addItems s (filterSortItems s.supports s.minSupport tx) 1 hw)

theorem ppFold_WFA (pps : List PrefixPathRec) : ∀ (s : FPTreeState), WFA s → WFA (ppFold s pps) := by
  induction pps with
  | nil => intro s hw; exact hw
  | cons pp pps ih =>
    intro s hw
    exact ih (addItems s (filterSortItems s.supports s.minSupport pp.path) pp.support)
      (WFA_addItems s (filterSortItems s.supports s.minSupport pp.path) pp.support hw)

theorem builtFrom_WFA (t : FPTreeState) (h : BuiltFrom t) : WFA t := by
  rcases h with ⟨sup, m, ts, hok⟩ | ⟨sup, m, pps, hok⟩
  · obtain ⟨-, ht⟩ := fromTransactions_ok _ ts t hok
    exact WFA_of_nodes_eq (txFold (mkFPTree sup m) ts) t (by rw [ht]) (txFold_WFA ts _ (WFA_mk sup m))
  · obtain ⟨-, ht⟩ := fromPrefixPaths_ok _ pps t hok
    exact WFA_of_nodes_eq (ppFold (mkFPTree sup m) pps) t (by rw [ht]) (ppFold_WFA pps _ (WFA_mk sup m))

theorem builtFrom_isInit (t : FPTreeState) (h : BuiltFrom t) : t.isInit = true := by
  rcases h with ⟨sup, m, ts, hok⟩ | ⟨sup, m, pps, hok⟩
  · rw [(fromTransactions_ok _ ts t hok).2]
  · rw [(fromPrefixPaths_ok _ pps t hok).2]

theorem filterSortItems_mem (sup : List (Nat × Nat)) (m : Nat) (t : List Nat) :
    ∀ k ∈ filterSortItems sup m t, jsGE (lookupA sup k) m = true := by
  intro k hk
  unfold filterSortItems at hk
  rw [mem_stableSort] at hk
  exact (List.mem_filter.mp hk).2

theorem txFold_misc (ts : List (List Nat)) : ∀ (s : FPTreeState),
    (txFold s ts).supports = s.supports ∧ (txFold s ts).minSupport = s.minSupport ∧
    (txFold s ts).isInit = s.isInit := by
  induction ts with
  | nil => intro s; exact ⟨rfl, rfl, rfl⟩
  | cons tx ts ih =>
    intro s
    have h1 := addItems_misc s (filterSortItems s.supports s.minSupport tx) 1
    have h2 := ih (addItems s (filterSortItems s.supports s.minSupport tx) 1)
    exact ⟨h2.1.trans h1.1, h2.2.1.trans h1.2.1, h2.2.2.trans h1.2.2.2⟩

theorem ppFold_misc (pps : List PrefixPathRec) : ∀ (s : FPTreeState),
    (ppFold s pps).supports = s.supports ∧ (ppFold s pps).minSupport = s.minSupport ∧
    (ppFold s pps).isInit = s.isInit := by
  induction pps with
  | nil => intro s; exact ⟨rfl, rfl, rfl⟩
  | cons pp pps ih =>
    intro s
    have h1 := addItems_misc s (filterSortItems s.supports s.minSupport pp.path) pp.support
    have h2 := ih (addItems s (filterSortItems s.supports s.minSupport pp.path) pp.support)
    exact ⟨h2.1.trans h1.1, h2.2.1.trans h1.2.1, h2.2.2.trans h1.2.2.2⟩

theorem addItems_keys_jsGE (s : FPTreeState) (items : List Nat) (w : Nat)
    (hs : ∀ k ∈ keysOf s.firstInserted, jsGE (lookupA s.supports k) s.minSupport = true)
    (hi : ∀ k ∈ items, jsGE (lookupA s.supports k) s.minSupport = true) :
    ∀ k ∈ keysOf (addItems s items w).firstInserted,
      jsGE (lookupA (addItems s items w).supports k) (addItems s items w).minSupport = true := by
  intro k hk
  rw [(addItems_misc s items w).1, (addItems_misc s items w).2.1]
  rcases addItems_first_keys s items w k hk with h | h
  · exact hs k h
  · exact hi k h

theorem txFold_keys_jsGE (ts : List (List Nat)) : ∀ (s : FPTreeState),
    (∀ k ∈ keysOf s.firstInserted, jsGE (lookupA s.supports k) s.minSupport = true) →
    ∀ k ∈ keysOf (txFold s ts).firstInserted,
      jsGE (lookupA (txFold s ts).supports k) (txFold s ts).minSupport = true := by
  induction ts with
  | nil => intro s hs; exact hs
  | cons tx ts ih =>
    intro s hs
    exact ih (addItems s (filterSortItems s.supports s.minSupport tx) 1)
      (addItems_keys_jsGE s _ 1 hs (filterSortItems_mem s.supports s.minSupport tx))

theorem ppFold_keys_jsGE (pps : List PrefixPathRec) : ∀ (s : FPTreeState),
    (∀ k ∈ keysOf s.firstInserted, jsGE (lookupA s.supports k) s.minSupport = true) →
    ∀ k ∈ keysOf (ppFold s pps).firstInserted,
      jsGE (lookupA (ppFold s pps).supports k) (ppFold s pps).minSupport = true := by
  induction pps with
  | nil => intro s hs; exact hs
  | cons pp pps ih =>
    intro s hs
    exact ih (addItems s (filterSortItems s.supports s.minSupport pp.path) pp.support)
      (addItems_keys_jsGE s _ pp.support hs (filterSortItems_mem s.supports s.minSupport pp.path))

theorem mem_getHeaderList (s : FPTreeState) (k : Nat) (h : k ∈ getHeaderList s) :
    k ∈ keysOf s.firstInserted := by
  unfold getHeaderList at h
  rw [mem_stableSort] at h
  unfold jsKeys at h
  rw [mem_stableSort] at h
  exact h

theorem mineInv_fromTransactions (sup : List (Nat × Nat)) (m : Nat) (ts : List (List Nat))
    (t : FPTreeState) (h : fromTransactions (mkFPTree sup m) ts = .ok t) : MineInv t m := by
  obtain ⟨-, ht⟩ := fromTransactions_ok _ ts t h
  refine ⟨?_, ?_, ?_⟩
  · rw [ht]
    exact (txFold_misc ts (mkFPTree sup m)).2.1
  · intro k hk
    rw [ht] at hk ⊢
    exact mem_getHeaderList _ k hk
  · intro k hk
    rw [ht] at hk ⊢
    have h2 := txFold_keys_jsGE ts (mkFPTree sup m)
      (fun k2 hk2 => absurd hk2 (List.not_mem_nil k2)) k hk
    rw [(txFold_misc ts (mkFPTree sup m)).2.1] at h2
    exact h2

theorem mineInv_fromPrefixPaths (sup : List (Nat × Nat)) (m : Nat) (pps : List PrefixPathRec)
    (t : FPTreeState) (h : fromPrefixPaths (mkFPTree sup m) pps = .ok t) : MineInv t m := by
  obtain ⟨-, ht⟩ := fromPrefixPaths_ok _ pps t h
  refine ⟨?_, ?_, ?_⟩
  · rw [ht]
    exact (ppFold_misc pps (mkFPTree sup m)).2.1
  · intro k hk
    rw [ht] at hk ⊢
    exact mem_getHeaderList _ k hk
  · intro k hk
    rw [ht] at hk ⊢
    have h2 := ppFold_keys_jsGE pps (mkFPTree sup m)
      (fun k2 hk2 => absurd hk2 (List.not_mem_nil k2)) k hk
    rw [(ppFold_misc pps (mkFPTree sup m)).2.1] at h2
    exact h2

theorem getCond_some (s : FPTreeState) (it : Nat) (t : FPTreeState)
    (h : getConditionalFPTree s it = .ok (some t)) :
    MineInv t s.minSupport ∧ BuiltFrom t := by
  unfold getConditionalFPTree at h
  split at h
  · exact absurd (Except.ok.inj h) (fun hc => Option.noConfusion hc)
  · split at h
    · exact absurd h (fun hc => Except.noConfusion hc)
    · rename_i pps hpps
      split at h
      · exact absurd h (fun hc => Except.noConfusion hc)
      · rename_i t2 hfp
        split at h
        · exact absurd (Except.ok.inj h) (fun hc => Option.noConfusion hc)
        · have ht2 : t2 = t := Option.some.inj (Except.ok.inj h)
          subst ht2
          exact ⟨mineInv_fromPrefixPaths _ _ pps t2 hfp,
            Or.inr ⟨condSupports pps, s.minSupport, pps, hfp⟩⟩

theorem fpGrowthRec_succ (fuel : Nat) (s : FPTreeState) (ps : Nat) (pre : List Nat) :
    fpGrowthRec (fuel+1) s ps pre = s.headers.foldl (fun acc it =>
      let sup := jsMin (lookupA s.supports it) ps
      let cur := pre ++ [it]
      let acc2 := acc ++ [⟨cur, sup⟩]
      match getConditionalFPTree s it with
      | .ok (some child) => acc2 ++ fpGrowthRec fuel child sup cur
      | _ => acc2) [] := rfl

theorem fpGrowth_min_support (m : Nat) : ∀ (fuel : Nat) (s : FPTreeState) (ps : Nat) (pre : List Nat),
    MineInv s m → m ≤ ps →
    ∀ is ∈ fpGrowthRec fuel s ps pre, m ≤ is.support := by
  intro fuel
  induction fuel with
  | zero =>
    intro s ps pre hinv hps is his
    simp [fpGrowthRec] at his
  | succ fuel ih =>
    intro s ps pre hinv hps is his
    rw [fpGrowthRec_succ] at his
    have main : ∀ (l : List Nat) (acc : List Itemset),
        (∀ k ∈ l, k ∈ keysOf s.firstInserted) →
        (∀ is2 ∈ acc, m ≤ is2.support) →
        ∀ is2 ∈ l.foldl (fun acc it =>
          let sup := jsMin (lookupA s.supports it) ps
          let cur := pre ++ [it]
          let acc2 := acc ++ [⟨cur, sup⟩]
          match getConditionalFPTree s it with
          | .ok (some child) => acc2 ++ fpGrowthRec fuel child sup cur
          | _ => acc2) acc, m ≤ is2.support := by
      intro l
      induction l with
      | nil =>
        intro acc hl hacc is2 his2
        exact hacc is2 his2
      | cons x l ihl =>
        intro acc hl hacc is2 his2
        have hx : x ∈ keysOf s.firstInserted := hl x (List.mem_cons_self x l)
        have hsup : m ≤ jsMin (lookupA s.supports x) ps := by
          have hj := hinv.keys_sup x hx
          unfold jsGE at hj
          cases hlk : lookupA s.supports x with
          | none => rw [hlk] at hj; exact absurd hj (by simp)
          | some v =>
            rw [hlk] at hj
            unfold jsMin
            exact le_min (by simpa using hj) hps
        refine ihl _ (fun k hk => hl k (List.mem_cons_of_mem x hk)) ?_ is2 his2
        intro is3 his3
        have hacc2 : ∀ is4 ∈ acc ++ [Itemset.mk (pre ++ [x]) (jsMin (lookupA s.supports x) ps)],
            m ≤ is4.support := by
          intro is4 his4
          rcases List.mem_append.mp his4 with h | h
          · exact hacc is4 h
          · rw [List.mem_singleton.mp h]
            exact hsup
        dsimp only at his3
        split at his3
        · rename_i child hchild
          rcases List.mem_append.mp his3 with h | h
          · exact hacc2 is3 h
          · have hcs := getCond_some s x child hchild
            have hminv : MineInv child m := by
              have := hcs.1
              rw [hinv.min_eq] at this
              exact this
            exact ih child (jsMin (lookupA s.supports x) ps) (pre ++ [x]) hminv hsup is3 h
        · exact hacc2 is3 his3
    refine main s.headers [] (fun k hk => hinv.headers_keys k hk) ?_ is his
    intro is2 his2
    exact absurd his2 (List.not_mem_nil is2)

/-- C3: for every transaction set and every relative support r in (0,1), no
itemset is emitted with support strictly below the absolute threshold
ceil(r × transactionCount).  The conversion is a single `Math.ceil`
computation at the top of `exec` (modelled as the one `toNat`-ceiling in
`exec`); every item registered in a tree passed the pruning filter against
that tree's own support table, and the running prefix support never drops
below the threshold, so every emitted `min` stays at or above it. -/
theorem c3_no_emission_below_threshold (r : ℚ) (ts : List (List Nat))
    (h0 : 0 < r) (h1 : r < 1) :
    ∀ is ∈ exec r ts, (⌈r * (ts.length : ℚ)⌉).toNat ≤ is.support := by
  intro is his
  unfold exec at his
  have hmN : (⌈r * (ts.length : ℚ)⌉).toNat ≤ ts.length := by
    rw [Int.toNat_le]
    rw [Int.ceil_le]
    push_cast
    nlinarith [Nat.cast_nonneg (α := ℚ) ts.length]
  unfold execAbs at his
  dsimp only at his
  split at his
  · rename_i tree htree
    exact fpGrowth_min_support (⌈r * (ts.length : ℚ)⌉).toNat tree.nodes.length tree ts.length []
      (mineInv_fromTransactions _ _ ts tree htree) hmN is his
  · exact absurd his (List.not_mem_nil is)

/-- C3 witness: instantiated on the spec §8 example at relative support 2/5
(threshold 2) for the emitted itemset {5} with support 4. -/
theorem c3_no_emission_below_threshold_witness :
    (⌈(2/5 : ℚ) * ((specExampleTs.length : ℚ))⌉).toNat ≤ (Itemset.mk [5] 4).support :=
  c3_no_emission_below_threshold (2/5) specExampleTs (by norm_num) (by norm_num)
    (Itemset.mk [5] 4)
    (by rw [exec_specExample_eq]; decide)

/-- C4 (amended): on a freshly constructed, unbuilt tree the queries
getPrefixPaths, getPrefixPath, isSinglePath and getSinglePath fail with the
NotInitialized error, while getConditionalFPTree — which has no
initialization check — returns the null sentinel; and on any already-built
tree both construction methods fail with the AlreadyBuilt error.  The code
uses the single message "Error building the FPTree" for both errors. -/
theorem c4_amended_queries_and_double_build (sup : List (Nat × Nat)) (m k i : Nat)
    (t : FPTreeState) (hb : t.isInit = true)
    (ts : List (List Nat)) (pps : List PrefixPathRec) :
    getPrefixPaths (mkFPTree sup m) k = .error errMsg ∧
    getPrefixPathNode (mkFPTree sup m) i = .error errMsg ∧
    isSinglePath (mkFPTree sup m) = .error errMsg ∧
    getSinglePath (mkFPTree sup m) = .error errMsg ∧
    getConditionalFPTree (mkFPTree sup m) k = .ok none ∧
    fromTransactions t ts = .error errMsg ∧
    fromPrefixPaths t pps = .error errMsg := by
  refine ⟨rfl, rfl, rfl, rfl, rfl, ?_, ?_⟩
  · unfold fromTransactions
    rw [if_pos hb]
  · unfold fromPrefixPaths
    rw [if_pos hb]

/-- C4 witness: the amended statement instantiated at a concrete supports
table, item 1, node 0, and the built tree of the `[[2,10]]` example. -/
theorem c4_amended_witness :
    getPrefixPaths (mkFPTree [(1, 1)] 1) 1 = .error errMsg ∧
    getPrefixPathNode (mkFPTree [(1, 1)] 1) 0 = .error errMsg ∧
    isSinglePath (mkFPTree [(1, 1)] 1) = .error errMsg ∧
    getSinglePath (mkFPTree [(1, 1)] 1) = .error errMsg ∧
    getConditionalFPTree (mkFPTree [(1, 1)] 1) 1 = .ok none ∧
    fromTransactions tieTree [] = .error errMsg ∧
    fromPrefixPaths tieTree [] = .error errMsg :=
  c4_amended_queries_and_double_build [(1, 1)] 1 1 0 tieTree rfl [] []

theorem siblingsOK_mk (sup : List (Nat × Nat)) (m : Nat) : SiblingsOK (mkFPTree sup m) := by
  intro i
  have : childrenOf (mkFPTree sup m) i = [] := by
    unfold childrenOf nodeAt mkFPTree
    match i with
    | 0 => rfl
    | j+1 => rfl
  rw [this]
  exact List.nodup_nil

theorem siblingsOK_of_nodes_eq (s t : FPTreeState) (h : t.nodes = s.nodes)
    (hs : SiblingsOK s) : SiblingsOK t := by
  intro i
  have hc : childrenOf t i = childrenOf s i := by unfold childrenOf nodeAt; rw [h]
  have hi : ∀ c, itemOf t c = itemOf s c := by intro c; unfold itemOf nodeAt; rw [h]
  rw [hc]
  have : (childrenOf s i).map (fun c => itemOf t c) = (childrenOf s i).map (fun c => itemOf s c) :=
    List.map_congr_left (fun c _ => hi c)
  rw [this]
  exact hs i

theorem siblings_upsert (s : FPTreeState) (pid it w : Nat) (hw : WFA s)
    (hs : SiblingsOK s) (hp : pid < s.nodes.length) :
    SiblingsOK (upsertChild s pid it w).1 := by
  cases hf : getChildId s pid it with
  | some cid =>
    intro i
    rw [upsertChild_found_childrenOf s pid it w cid hf]
    have : (childrenOf s i).map (fun c => itemOf (upsertChild s pid it w).1 c)
        = (childrenOf s i).map (fun c => itemOf s c) :=
      List.map_congr_left (fun c _ => upsertChild_found_itemOf s pid it w cid hf c)
    rw [this]
    exact hs i
  | none =>
    intro i
    rw [upsertChild_create_childrenOf s pid it w hf hp i]
    by_cases hip : i = pid
    · rw [if_pos hip]
      rw [List.map_append]
      have h1 : (childrenOf s pid).map (fun c => itemOf (upsertChild s pid it w).1 c)
          = (childrenOf s pid).map (fun c => itemOf s c) := by
        refine List.map_congr_left (fun c hc => ?_)
        rw [upsertChild_create_itemOf s pid it w hf c]
        have hclt : c < s.nodes.length := (hw.child_attached pid c hc).2.2
        rw [if_neg (by omega)]
      rw [h1]
      have h2 : [s.nodes.length].map (fun c => itemOf (upsertChild s pid it w).1 c)
          = [some it] := by
        simp [upsertChild_create_itemOf s pid it w hf]
      rw [h2]
      rw [List.nodup_append]
      refine ⟨hs pid, List.nodup_singleton _, ?_⟩
      intro a ha hb
      rcases List.mem_map.mp ha with ⟨c, hc1, hc2⟩
      have ha2 : a = some it := List.mem_singleton.mp hb
      exact getChildId_none s pid it hf c hc1 (by rw [hc2]; exact ha2)
    · rw [if_neg hip]
      by_cases hin : i = s.nodes.length
      · rw [if_pos hin]
        exact List.nodup_nil
      · rw [if_neg hin]
        have : (childrenOf s i).map (fun c => itemOf (upsertChild s pid it w).1 c)
            = (childrenOf s i).map (fun c => itemOf s c) := by
          refine List.map_congr_left (fun c hc => ?_)
          rw [upsertChild_create_itemOf s pid it w hf c]
          have hclt : c < s.nodes.length := (hw.child_attached i c hc).2.2
          rw [if_neg (by omega)]
        rw [this]
        exact hs i

theorem siblings_foldUpsert (w : Nat) : ∀ (items : List Nat) (s : FPTreeState) (cur : Nat),
    WFA s → SiblingsOK s → cur < s.nodes.length →
    SiblingsOK ((items.foldl (fun acc it => upsertChild acc.1 acc.2 it w) (s, cur)).1) := by
  intro items
  induction items with
  | nil => intro s cur hw hs hc; exact hs
  | cons x items ih =>
    intro s cur hw hs hc
    have h1 := WFA_upsert s cur x w hw hc
    exact ih (upsertChild s cur x w).1 (upsertChild s cur x w).2 h1.1
      (siblings_upsert s cur x w hw hs hc) h1.2

theorem siblings_addItems (s : FPTreeState) (items : List Nat) (w : Nat)
    (hw : WFA s) (hs : SiblingsOK s) : SiblingsOK (addItems s items w) := by
  unfold addItems
  exact siblings_foldUpsert w items s 0 hw hs hw.root_lt

theorem siblings_insertAll : ∀ (l : List (List Nat × Nat)) (s : FPTreeState),
    WFA s → SiblingsOK s → SiblingsOK (insertAll s l) := by
  intro l
  induction l with
  | nil => intro s _ hs; exact hs
  | cons p l ih =>
    intro s hw hs
    exact ih (addItems s p.1 p.2) (WFA_addItems s p.1 p.2 hw) (siblings_addItems s p.1 p.2 hw hs)

theorem siblings_txFold : ∀ (ts : List (List Nat)) (s : FPTreeState),
    WFA s → SiblingsOK s → SiblingsOK (txFold s ts) := by
  intro ts
  induction ts with
  | nil => intro s _ hs; exact hs
  | cons tx ts ih =>
    intro s hw hs
    exact ih (addItems s (filterSortItems s.supports s.minSupport tx) 1)
      (WFA_addItems s _ 1 hw) (siblings_addItems s _ 1 hw hs)

theorem siblings_ppFold : ∀ (pps : List PrefixPathRec) (s : FPTreeState),
    WFA s → SiblingsOK s → SiblingsOK (ppFold s pps) := by
  intro pps
  induction pps with
  | nil => intro s _ hs; exact hs
  | cons pp pps ih =>
    intro s hw hs
    exact ih (addItems s (filterSortItems s.supports s.minSupport pp.path) pp.support)
      (WFA_addItems s _ pp.support hw) (siblings_addItems s _ pp.support hw hs)

theorem siblings_built (t : FPTreeState) (h : BuiltFrom t) : SiblingsOK t := by
  rcases h with ⟨sup, m, ts, hok⟩ | ⟨sup, m, pps, hok⟩
  · obtain ⟨-, ht⟩ := fromTransactions_ok _ ts t hok
    exact siblingsOK_of_nodes_eq (txFold (mkFPTree sup m) ts) t (by rw [ht])
      (siblings_txFold ts _ (WFA_mk sup m) (siblingsOK_mk sup m))
  · obtain ⟨-, ht⟩ := fromPrefixPaths_ok _ pps t hok
    exact siblingsOK_of_nodes_eq (ppFold (mkFPTree sup m) pps) t (by rw [ht])
      (siblings_ppFold pps _ (WFA_mk sup m) (siblingsOK_mk sup m))

/-- C10: in every tree reached by a sequence of `_addItems` insertions from a
fresh constructor state — in particular in every built FPTree — no node has
two children carrying equal items (so a node and its parent chain determine
itemset membership uniquely), and the invariant is preserved by every
`upsertChild` on a valid node of a well-formed tree: the linear `getChild`
scan either reuses the unique existing child or appends an item that no
sibling carries. -/
theorem c10_sibling_item_uniqueness :
    (∀ (sup : List (Nat × Nat)) (m : Nat) (l : List (List Nat × Nat)),
      SiblingsOK (insertAll (mkFPTree sup m) l)) ∧
    (∀ t, BuiltFrom t → SiblingsOK t) ∧
    (∀ (s : FPTreeState) (pid it w : Nat), WFA s → SiblingsOK s → pid < s.nodes.length →
      SiblingsOK (upsertChild s pid it w).1) :=
  ⟨fun sup m l => siblings_insertAll l (mkFPTree sup m) (WFA_mk sup m) (siblingsOK_mk sup m),
   siblings_built,
   fun s pid it w hw hs hp => siblings_upsert s pid it w hw hs hp⟩

/-- C10 witness: the preservation clause applied to the built `[[2,10]]`
example tree, upserting a fresh item 7 under the root. -/
theorem c10_sibling_item_uniqueness_witness :
    SiblingsOK (upsertChild tieTree 0 7 1).1 :=
  c10_sibling_item_uniqueness.2.2 tieTree 0 7 1
    (builtFrom_WFA tieTree (Or.inl ⟨getDistinctItemsCount tieTs, 1, tieTs, rfl⟩))
    (siblings_built tieTree (Or.inl ⟨getDistinctItemsCount tieTs, 1, tieTs, rfl⟩))
    (by decide)

theorem itemIds_mem (s : FPTreeState) (k i : Nat) :
    i ∈ itemIds s k ↔ i < s.nodes.length ∧ itemOf s i = some k := by
  unfold itemIds
  rw [List.mem_filter, List.mem_range]
  simp

theorem itemIds_sorted (s : FPTreeState) (k : Nat) :
    List.Pairwise (· < ·) (itemIds s k) :=
  List.Pairwise.filter _ (List.pairwise_lt_range _)

theorem itemIds_nodup (s : FPTreeState) (k : Nat) : (itemIds s k).Nodup :=
  (itemIds_sorted s k).imp Nat.ne_of_lt

theorem itemIds_length_le (s : FPTreeState) (k : Nat) :
    (itemIds s k).length ≤ s.nodes.length := by
  unfold itemIds
  calc ((List.range s.nodes.length).filter _).length
      ≤ (List.range s.nodes.length).length := List.length_filter_le _ _
    _ = s.nodes.length := List.length_range _

theorem itemIds_mk (sup : List (Nat × Nat)) (m k : Nat) :
    itemIds (mkFPTree sup m) k = [] := by
  unfold itemIds
  rw [show (mkFPTree sup m).nodes.length = 1 from rfl]
  rfl

theorem itemIds_congr (s t : FPTreeState) (hl : t.nodes.length = s.nodes.length)
    (hi : ∀ i, itemOf t i = itemOf s i) (k : Nat) : itemIds t k = itemIds s k := by
  unfold itemIds
  rw [hl]
  exact List.filter_congr (fun i _ => by rw [hi i])

theorem itemIds_upsert_create (s : FPTreeState) (pid it w : Nat)
    (hf : getChildId s pid it = none) (k : Nat) :
    itemIds ((upsertChild s pid it w).1) k =
      if k = it then itemIds s k ++ [s.nodes.length] else itemIds s k := by
  unfold itemIds
  rw [upsertChild_create_length s pid it w hf, List.range_succ, List.filter_append]
  have h1 : (List.range s.nodes.length).filter
      (fun i => itemOf (upsertChild s pid it w).1 i == some k)
      = (List.range s.nodes.length).filter (fun i => itemOf s i == some k) := by
    refine List.filter_congr (fun i hi => ?_)
    rw [List.mem_range] at hi
    rw [upsertChild_create_itemOf s pid it w hf i, if_neg (by omega)]
  rw [h1]
  have h2 : itemOf (upsertChild s pid it w).1 s.nodes.length = some it := by
    rw [upsertChild_create_itemOf s pid it w hf, if_pos rfl]
  by_cases hk : k = it
  · subst hk
    rw [if_pos rfl]
    congr 1
    simp [h2]
  · rw [if_neg hk]
    have : ([s.nodes.length].filter (fun i => itemOf (upsertChild s pid it w).1 i == some k)) = [] := by
      simp [h2, hk, Ne.symm hk]
    rw [this, List.append_nil]

theorem itemIds_upsert_found (s : FPTreeState) (pid it w cid : Nat)
    (hf : getChildId s pid it = some cid) (k : Nat) :
    itemIds ((upsertChild s pid it w).1) k = itemIds s k :=
  itemIds_congr s _ (upsertChild_found_maps s pid it w cid hf).2.2.2.2.2.2
    (upsertChild_found_itemOf s pid it w cid hf) k

theorem chain_transport (s t : FPTreeState) : ∀ (l : List Nat),
    (∀ a ∈ l.dropLast, nextOf t a = nextOf s a) →
    List.Chain' (fun a b => nextOf s a = some b) l →
    List.Chain' (fun a b => nextOf t a = some b) l := by
  intro l
  induction l with
  | nil => intro _ _; exact List.chain'_nil
  | cons a l ih =>
    intro hd hc
    cases l with
    | nil => exact List.chain'_singleton a
    | cons b l2 =>
      rw [List.chain'_cons] at hc ⊢
      refine ⟨?_, ih ?_ hc.2⟩
      · rw [hd a (by simp [List.dropLast])]
        exact hc.1
      · intro x hx
        exact hd x (by simp [List.dropLast]; right; exact hx)

theorem chainFrom_eq (s : FPTreeState) : ∀ (l : List Nat) (fuel : Nat),
    List.Chain' (fun a b => nextOf s a = some b) l →
    (∀ i, l.getLast? = some i → nextOf s i = none) →
    l.length ≤ fuel →
    chainFrom s l.head? fuel = l := by
  intro l
  induction l with
  | nil => intro fuel _ _ _; cases fuel <;> rfl
  | cons a l ih =>
    intro fuel hc hlast hlen
    cases fuel with
    | zero => simp at hlen
    | succ f =>
      show a :: chainFrom s (nextOf s a) f = a :: l
      congr 1
      cases l with
      | nil =>
        rw [hlast a rfl]
        cases f <;> rfl
      | cons b l2 =>
        rw [List.chain'_cons] at hc
        rw [hc.1]
        have : (some b : Option Nat) = (b :: l2).head? := rfl
        rw [this]
        refine ih f hc.2 ?_ (by simp at hlen ⊢; omega)
        intro i hi
        refine hlast i ?_
        rw [List.getLast?_cons_cons]
        exact hi

theorem head?_append_left {α : Type} (l l2 : List α) (a : α) (h : l.head? = some a) :
    (l ++ l2).head? = some a := by
  cases l with
  | nil => exact absurd h (by simp)
  | cons x l => simpa using h

theorem nextOf_lt_length (s : FPTreeState) (i j : Nat) (h : nextOf s i = some j) :
    i < s.nodes.length := by
  by_contra hc
  have : nodeAt s i = none := by
    unfold nodeAt
    exact List.getElem?_eq_none (by omega)
  unfold nextOf at h
  rw [this] at h
  exact Option.noConfusion h

theorem not_mem_dropLast_of_getLast? {α : Type} [DecidableEq α] (l : List α) (a : α)
    (hnd : l.Nodup) (hl : l.getLast? = some a) : a ∉ l.dropLast := by
  intro hmem
  have hne : l ≠ [] := by
    intro he
    rw [he] at hl
    exact Option.noConfusion hl
  have hsplit : l.dropLast ++ [l.getLast hne] = l := List.dropLast_concat_getLast hne
  have hga : l.getLast hne = a := by
    have := List.getLast?_eq_getLast l hne
    rw [this] at hl
    exact Option.some.inj hl
  rw [← hsplit] at hnd
  rw [List.nodup_append] at hnd
  exact hnd.2.2 hmem (by rw [hga]; exact List.mem_singleton_self a)

theorem upsertChild_create_first_some (s : FPTreeState) (pid it w f0 : Nat)
    (hf : getChildId s pid it = none) (hfi : lookupA s.firstInserted it = some f0) :
    (upsertChild s pid it w).1.firstInserted = s.firstInserted := by
  rw [upsertChild_create_first s pid it w hf, hfi]

theorem upsertChild_create_first_none (s : FPTreeState) (pid it w : Nat)
    (hf : getChildId s pid it = none) (hfi : lookupA s.firstInserted it = none) :
    (upsertChild s pid it w).1.firstInserted = setA s.firstInserted it s.nodes.length := by
  rw [upsertChild_create_first s pid it w hf, hfi]

theorem links_mk (sup : List (Nat × Nat)) (m : Nat) : LinksInv (mkFPTree sup m) := by
  refine ⟨?_, ?_, ?_, ?_, ?_⟩
  · intro k; rw [itemIds_mk]; rfl
  · intro k; rw [itemIds_mk]; rfl
  · intro k; rw [itemIds_mk]; exact List.chain'_nil
  · intro k i hi
    rw [itemIds_mk] at hi
    exact absurd hi (by simp)
  · intro i j hn
    have hz : nextOf (mkFPTree sup m) i = none := by
      unfold nextOf nodeAt mkFPTree
      match i with
      | 0 => rfl
      | x+1 => rfl
    rw [hz] at hn
    exact Option.noConfusion hn

theorem links_upsert (s : FPTreeState) (pid it w : Nat) (hinv : LinksInv s) :
    LinksInv (upsertChild s pid it w).1 := by
  cases hf : getChildId s pid it with
  | some cid =>
    have hmaps := upsertChild_found_maps s pid it w cid hf
    have hii := itemIds_upsert_found s pid it w cid hf
    have hnext := upsertChild_found_nextOf s pid it w cid hf
    have hitem := upsertChild_found_itemOf s pid it w cid hf
    refine ⟨?_, ?_, ?_, ?_, ?_⟩
    · intro k; rw [hmaps.1, hii k]; exact hinv.first_eq k
    · intro k; rw [hmaps.2.1, hii k]; exact hinv.last_eq k
    · intro k
      rw [hii k]
      exact chain_transport s _ (itemIds s k) (fun a _ => hnext a) (hinv.chain k)
    · intro k i hi
      rw [hii k] at hi
      rw [hnext i]
      exact hinv.last_none k i hi
    · intro i j hn
      rw [hnext i] at hn
      obtain ⟨h1, h2, h3⟩ := hinv.link_shape i j hn
      exact ⟨h1, by rw [hmaps.2.2.2.2.2.2]; exact h2, by rw [hitem i, hitem j]; exact h3⟩
  | none =>
    have hL : ∀ L, lookupA s.lastInserted it = some L → L < s.nodes.length := by
      intro L h2
      have h3 := hinv.last_eq it
      rw [h2] at h3
      have hmem : L ∈ itemIds s it := List.mem_of_mem_getLast? h3.symm
      exact ((itemIds_mem s it L).mp hmem).1
    have hitemL : ∀ L, lookupA s.lastInserted it = some L → itemOf s L = some it := by
      intro L h2
      have h3 := hinv.last_eq it
      rw [h2] at h3
      have hmem : L ∈ itemIds s it := List.mem_of_mem_getLast? h3.symm
      exact ((itemIds_mem s it L).mp hmem).2
    have hnextC := upsertChild_create_nextOf s pid it w hf hL
    have hitemC := upsertChild_create_itemOf s pid it w hf
    have hlastC := upsertChild_create_last s pid it w hf
    have hiiC := itemIds_upsert_create s pid it w hf
    have hlenC := upsertChild_create_length s pid it w hf
    have hnext_stable : ∀ a, a < s.nodes.length →
        lookupA s.lastInserted it ≠ some a →
        nextOf (upsertChild s pid it w).1 a = nextOf s a := by
      intro a ha hne
      rw [hnextC a, if_neg hne, if_neg (by omega)]
    refine ⟨?_, ?_, ?_, ?_, ?_⟩
    · intro k
      by_cases hk : k = it
      · subst hk
        cases hfi : lookupA s.firstInserted k with
        | some f0 =>
          rw [upsertChild_create_first_some s pid k w f0 hf hfi, hiiC k, if_pos rfl, hfi]
          have h4 := hinv.first_eq k
          rw [hfi] at h4
          exact (head?_append_left _ [s.nodes.length] f0 h4.symm).symm
        | none =>
          rw [upsertChild_create_first_none s pid k w hf hfi, hiiC k, if_pos rfl,
            lookupA_setA_same]
          have h4 := hinv.first_eq k
          rw [hfi] at h4
          have hl0 : itemIds s k = [] := List.head?_eq_none_iff.mp h4.symm
          rw [hl0]
          rfl
      · have hfirst_k : lookupA (upsertChild s pid it w).1.firstInserted k
            = lookupA s.firstInserted k := by
          cases hfi : lookupA s.firstInserted it with
          | some f0 => rw [upsertChild_create_first_some s pid it w f0 hf hfi]
          | none =>
            rw [upsertChild_create_first_none s pid it w hf hfi,
              lookupA_setA_other _ _ _ _ hk]
        rw [hfirst_k, hiiC k, if_neg hk]
        exact hinv.first_eq k
    · intro k
      by_cases hk : k = it
      · subst hk
        rw [hlastC, lookupA_setA_same, hiiC k, if_pos rfl, List.getLast?_concat]
      · rw [hlastC, lookupA_setA_other _ _ _ _ hk, hiiC k, if_neg hk]
        exact hinv.last_eq k
    · intro k
      by_cases hk : k = it
      · subst hk
        rw [hiiC k, if_pos rfl, List.chain'_append]
        refine ⟨?_, List.chain'_singleton _, ?_⟩
        · refine chain_transport s _ (itemIds s k) ?_ (hinv.chain k)
          intro a ha
          have haa : a ∈ itemIds s k := (List.dropLast_sublist (itemIds s k)).subset ha
          apply hnext_stable a ((itemIds_mem s k a).mp haa).1
          intro hco
          have h3 := hinv.last_eq k
          rw [hco] at h3
          exact not_mem_dropLast_of_getLast? _ a (itemIds_nodup s k) h3.symm ha
        · intro x hx y hy
          have hy2 : y = s.nodes.length := by
            have h5 := Option.mem_def.mp hy
            exact (Option.some.inj h5).symm
          have hxl : (itemIds s k).getLast? = some x := Option.mem_def.mp hx
          have hco : lookupA s.lastInserted k = some x := by rw [hinv.last_eq k, hxl]
          rw [hnextC x, if_pos hco, hy2]
      · rw [hiiC k, if_neg hk]
        refine chain_transport s _ (itemIds s k) ?_ (hinv.chain k)
        intro a ha
        have haa : a ∈ itemIds s k := (List.dropLast_sublist (itemIds s k)).subset ha
        apply hnext_stable a ((itemIds_mem s k a).mp haa).1
        intro hco
        have hit := hitemL a hco
        have hkk := ((itemIds_mem s k a).mp haa).2
        rw [hit] at hkk
        exact hk (Option.some.inj hkk).symm
    · intro k i hi
      by_cases hk : k = it
      · subst hk
        rw [hiiC k, if_pos rfl, List.getLast?_concat] at hi
        have hi2 : i = s.nodes.length := (Option.some.inj hi).symm
        have hne : lookupA s.lastInserted k ≠ some i := by
          intro hcc
          have := hL i hcc
          omega
        rw [hnextC i, if_neg hne, if_pos hi2]
      · rw [hiiC k, if_neg hk] at hi
        have hmem : i ∈ itemIds s k := List.mem_of_mem_getLast? hi
        have hne : lookupA s.lastInserted it ≠ some i := by
          intro hcc
          have hit := hitemL i hcc
          have hkk := ((itemIds_mem s k i).mp hmem).2
          rw [hit] at hkk
          exact hk (Option.some.inj hkk).symm
        rw [hnext_stable i ((itemIds_mem s k i).mp hmem).1 hne]
        exact hinv.last_none k i hi
    · intro i j hn
      rw [hnextC i] at hn
      by_cases hco : lookupA s.lastInserted it = some i
      · rw [if_pos hco] at hn
        have hj : j = s.nodes.length := (Option.some.inj hn).symm
        have hilt := hL i hco
        refine ⟨by omega, by rw [hlenC]; omega, ?_⟩
        rw [hitemC i, if_neg (by omega), hitemC j, if_pos hj]
        exact hitemL i hco
      · rw [if_neg hco] at hn
        by_cases hin : i = s.nodes.length
        · rw [if_pos hin] at hn
          exact absurd hn (by simp)
        · rw [if_neg hin] at hn
          obtain ⟨h1, h2, h3⟩ := hinv.link_shape i j hn
          refine ⟨h1, by rw [hlenC]; omega, ?_⟩
          rw [hitemC i, if_neg hin, hitemC j, if_neg (by omega)]
          exact h3

theorem links_foldUpsert (w : Nat) : ∀ (items : List Nat) (s : FPTreeState) (cur : Nat),
    LinksInv s →
    LinksInv ((items.foldl (fun acc it => upsertChild acc.1 acc.2 it w) (s, cur)).1) := by
  intro items
  induction items with
  | nil => intro s cur h; exact h
  | cons x items ih =>
    intro s cur h
    exact ih (upsertChild s cur x w).1 (upsertChild s cur x w).2 (links_upsert s cur x w h)

theorem links_addItems (s : FPTreeState) (items : List Nat) (w : Nat)
    (h : LinksInv s) : LinksInv (addItems s items w) := by
  unfold addItems
  exact links_foldUpsert w items s 0 h

theorem links_insertAll : ∀ (l : List (List Nat × Nat)) (s : FPTreeState),
    LinksInv s → LinksInv (insertAll s l) := by
  intro l
  induction l with
  | nil => intro s h; exact h
  | cons p l ih =>
    intro s h
    exact ih (addItems s p.1 p.2) (links_addItems s p.1 p.2 h)

theorem links_chainFrom (s : FPTreeState) (hinv : LinksInv s) (k : Nat) :
    chainFrom s (lookupA s.firstInserted k) s.nodes.length = itemIds s k := by
  rw [hinv.first_eq k]
  exact chainFrom_eq s (itemIds s k) s.nodes.length (hinv.chain k) (hinv.last_none k)
    (itemIds_length_le s k)

/-- C9: after any sequence of `_addItems` insertions on a fresh tree, for
every item k the walk from `firstInserted[k]` along `nextSameItemNode`
visits exactly the arena nodes carrying k, in creation (= insertion-time)
order (`itemIds` lists indices ascending, and indices are assigned in
creation order); `lastInserted[k]` is the tail of that chain; every link
goes to a strictly larger index (hence the chain is acyclic) and connects
two nodes of one and the same item; and the whole invariant (`LinksInv`) is
preserved by every `_addItems` insertion. -/
theorem c9_node_link_chains :
    (∀ (sup : List (Nat × Nat)) (m : Nat) (l : List (List Nat × Nat)) (k : Nat),
      chainFrom (insertAll (mkFPTree sup m) l)
          (lookupA (insertAll (mkFPTree sup m) l).firstInserted k)
          (insertAll (mkFPTree sup m) l).nodes.length
        = itemIds (insertAll (mkFPTree sup m) l) k ∧
      lookupA (insertAll (mkFPTree sup m) l).lastInserted k
        = (itemIds (insertAll (mkFPTree sup m) l) k).getLast? ∧
      (∀ i j, nextOf (insertAll (mkFPTree sup m) l) i = some j →
        i < j ∧ itemOf (insertAll (mkFPTree sup m) l) i = itemOf (insertAll (mkFPTree sup m) l) j)) ∧
    (∀ (s : FPTreeState) (items : List Nat) (w : Nat),
      LinksInv s → LinksInv (addItems s items w)) := by
  constructor
  · intro sup m l k
    have hinv : LinksInv (insertAll (mkFPTree sup m) l) :=
      links_insertAll l (mkFPTree sup m) (links_mk sup m)
    refine ⟨links_chainFrom _ hinv k, hinv.last_eq k, ?_⟩
    intro i j hn
    obtain ⟨h1, h2, h3⟩ := hinv.link_shape i j hn
    exact ⟨h1, h3⟩
  · exact fun s items w h => links_addItems s items w h

/-- C9 witness: the preservation clause applied to a concrete two-step
insertion state. -/
theorem c9_node_link_chains_witness :
    LinksInv (addItems (insertAll (mkFPTree [] 1) [([1, 1], 1)]) [2] 1) :=
  c9_node_link_chains.2 (insertAll (mkFPTree [] 1) [([1, 1], 1)]) [2] 1
    (links_insertAll [([1, 1], 1)] (mkFPTree [] 1) (links_mk [] 1))

theorem singlePathAux_succ (s : FPTreeState) (i : Nat) (acc : List Nat) (fuel : Nat) :
    singlePathAux s i acc (fuel+1) =
      match nodeAt s i with
      | none => none
      | some nd =>
        match nd.children with
        | [] => some acc
        | [c] => singlePathAux s c (acc ++ [c]) fuel
        | _ => none := rfl

theorem singlePathAux_of_node (s : FPTreeState) (i : Nat) (acc : List Nat) (fuel : Nat)
    (nd : NodeData) (hnd : nodeAt s i = some nd) :
    singlePathAux s i acc (fuel+1) =
      (match nd.children with
       | [] => some acc
       | [c] => singlePathAux s c (acc ++ [c]) fuel
       | _ => none) := by
  rw [singlePathAux_succ, hnd]

theorem singlePathAux_sound (s : FPTreeState) : ∀ (fuel i : Nat) (acc res : List Nat),
    singlePathAux s i acc fuel = some res →
    ∃ tail, res = acc ++ tail ∧ SinglePathFrom s i tail := by
  intro fuel
  induction fuel with
  | zero => intro i acc res h; exact absurd h (by simp [singlePathAux])
  | succ fuel ih =>
    intro i acc res h
    cases hnd : nodeAt s i with
    | none =>
      rw [singlePathAux_succ, hnd] at h
      exact absurd h (by simp)
    | some nd =>
      rw [singlePathAux_of_node s i acc fuel nd hnd] at h
      cases hch : nd.children with
      | nil =>
        rw [hch] at h
        refine ⟨[], by simpa using (Option.some.inj h).symm, SinglePathFrom.leaf i nd hnd hch⟩
      | cons c rest =>
        cases rest with
        | nil =>
          rw [hch] at h
          obtain ⟨tail, ht1, ht2⟩ := ih c (acc ++ [c]) res h
          refine ⟨c :: tail, by rw [ht1]; simp, SinglePathFrom.step i nd c tail hnd hch ht2⟩
        | cons c2 rest2 =>
          rw [hch] at h
          exact absurd h (by simp)

theorem singlePathAux_none_bad (s : FPTreeState) (hw : WFA s) :
    ∀ (fuel i : Nat) (acc : List Nat), i < s.nodes.length →
    s.nodes.length - i ≤ fuel →
    singlePathAux s i acc fuel = none →
    ∃ nd ∈ s.nodes, 2 ≤ nd.children.length := by
  intro fuel
  induction fuel with
  | zero =>
    intro i acc hi hfuel h
    omega
  | succ fuel ih =>
    intro i acc hi hfuel h
    cases hnd : nodeAt s i with
    | none =>
      exfalso
      unfold nodeAt at hnd
      rw [List.getElem?_eq_getElem hi] at hnd
      exact Option.noConfusion hnd
    | some nd =>
      rw [singlePathAux_of_node s i acc fuel nd hnd] at h
      cases hch : nd.children with
      | nil =>
        rw [hch] at h
        exact absurd h (by simp)
      | cons c rest =>
        cases rest with
        | nil =>
          rw [hch] at h
          have hc : c ∈ childrenOf s i := by
            unfold childrenOf
            rw [hnd]
            show c ∈ nd.children
            rw [hch]
            exact List.mem_singleton_self c
          obtain ⟨-, hic, hclen⟩ := hw.child_attached i c hc
          exact ih c (acc ++ [c]) hclen (by omega) h
        | cons c2 rest2 =>
          refine ⟨nd, ?_, ?_⟩
          · unfold nodeAt at hnd
            exact List.getElem?_mem hnd
          · rw [hch]
            simp

theorem SPF_props (s : FPTreeState) : ∀ (i : Nat) (tail : List Nat),
    SinglePathFrom s i tail →
    ∀ x ∈ i :: tail, ∃ nd, nodeAt s x = some nd ∧
      (nd.children = [] ∨ ∃ c, nd.children = [c] ∧ c ∈ i :: tail) := by
  intro i tail hspf
  induction hspf with
  | leaf j nd hnd hch =>
    intro x hx
    have hx2 : x = j := by simpa using hx
    subst hx2
    exact ⟨nd, hnd, Or.inl hch⟩
  | step j nd c rest hnd hch hspf2 ih =>
    intro x hx
    rcases List.mem_cons.mp hx with hx2 | hx2
    · subst hx2
      exact ⟨nd, hnd, Or.inr ⟨c, hch, by simp⟩⟩
    · obtain ⟨nd2, hnd2, hcase⟩ := ih x hx2
      refine ⟨nd2, hnd2, ?_⟩
      rcases hcase with h2 | ⟨c2, hc2, hc3⟩
      · exact Or.inl h2
      · exact Or.inr ⟨c2, hc2, List.mem_cons_of_mem j hc3⟩

theorem SPF_coverage (s : FPTreeState) (hw : WFA s) (path : List Nat)
    (hspf : SinglePathFrom s 0 path) :
    ∀ id, id < s.nodes.length → id ∈ 0 :: path := by
  intro id
  induction id using Nat.strong_induction_on with
  | _ id ih =>
    intro hid
    by_cases h0 : id = 0
    · subst h0
      exact List.mem_cons_self 0 path
    · obtain ⟨p, hp1, hp2⟩ := hw.parent_attached id (by omega) hid
      have hpid : p < id := (hw.child_attached p id hp2).2.1
      have hpmem : p ∈ 0 :: path := ih p hpid (by omega)
      obtain ⟨nd, hnd, hcase⟩ := SPF_props s 0 path hspf p hpmem
      have hch : childrenOf s p = nd.children := by
        unfold childrenOf
        rw [hnd]
      rcases hcase with h2 | ⟨c, hc2, hc3⟩
      · rw [hch, h2] at hp2
        exact absurd hp2 (List.not_mem_nil id)
      · rw [hch, hc2] at hp2
        have hidc : id = c := by simpa using hp2
        subst hidc
        exact hc3

theorem getSinglePath_built (t : FPTreeState) (hb : BuiltFrom t) :
    getSinglePath t = .ok (singlePathAux t 0 [] t.nodes.length) := by
  unfold getSinglePath
  rw [builtFrom_isInit t hb]
  rfl

theorem isSinglePath_built (t : FPTreeState) (hb : BuiltFrom t) :
    isSinglePath t = .ok (singlePathAux t 0 [] t.nodes.length).isSome := by
  unfold isSinglePath
  rw [builtFrom_isInit t hb]
  rfl

theorem singlePathAux_none_iff_bad (t : FPTreeState) (hw : WFA t) :
    singlePathAux t 0 [] t.nodes.length = none ↔
      ∃ nd ∈ t.nodes, 2 ≤ nd.children.length := by
  constructor
  · intro h
    exact singlePathAux_none_bad t hw t.nodes.length 0 [] hw.root_lt (by omega) h
  · rintro ⟨nd, hmem, hlen⟩
    cases haux : singlePathAux t 0 [] t.nodes.length with
    | none => rfl
    | some path =>
      exfalso
      obtain ⟨tail, ht1, hspf⟩ := singlePathAux_sound t _ 0 [] path haux
      have hp : path = tail := by simpa using ht1
      subst hp
      obtain ⟨idx, hidx⟩ := List.getElem?_of_mem hmem
      have hlt : idx < t.nodes.length := by
        by_contra hc
        rw [List.getElem?_eq_none (by omega)] at hidx
        exact Option.noConfusion hidx
      have hmem2 : idx ∈ 0 :: path := SPF_coverage t hw path hspf idx hlt
      obtain ⟨nd2, hnd2, hcase⟩ := SPF_props t 0 path hspf idx hmem2
      have hnd2e : nd2 = nd := by
        unfold nodeAt at hnd2
        rw [hidx] at hnd2
        exact (Option.some.inj hnd2).symm
      subst hnd2e
      rcases hcase with h2 | ⟨c, hc2, -⟩
      · rw [h2] at hlen
        simp at hlen
      · rw [hc2] at hlen
        simp at hlen

/-- C8: for every built FPTree, `isSinglePath` answers true exactly when no
node of the tree has more than one child; `getSinglePath` answers the absence
sentinel exactly when some node has at least two children; a childless root
yields the empty (present, not absent) path; and a returned path is the
root-to-leaf chain excluding the root — consecutive elements are each node's
unique child, the last element is childless, and together with the root the
path covers every node of the tree (so it ends at the unique leaf). -/
theorem c8_single_path_semantics (t : FPTreeState) (hb : BuiltFrom t) :
    (isSinglePath t = .ok true ↔ ∀ nd ∈ t.nodes, nd.children.length ≤ 1) ∧
    (getSinglePath t = .ok none ↔ ∃ nd ∈ t.nodes, 2 ≤ nd.children.length) ∧
    (childrenOf t 0 = [] → getSinglePath t = .ok (some [])) ∧
    (∀ p, getSinglePath t = .ok (some p) →
      SinglePathFrom t 0 p ∧ ∀ id, id < t.nodes.length → id ∈ 0 :: p) := by
  have hw := builtFrom_WFA t hb
  refine ⟨?_, ?_, ?_, ?_⟩
  · rw [isSinglePath_built t hb]
    constructor
    · intro h nd hmem
      have hsome : (singlePathAux t 0 [] t.nodes.length).isSome = true := Except.ok.inj h
      by_contra hgt
      have hbad : ∃ nd ∈ t.nodes, 2 ≤ nd.children.length := ⟨nd, hmem, by omega⟩
      rw [(singlePathAux_none_iff_bad t hw).mpr hbad] at hsome
      exact Bool.noConfusion hsome
    · intro hall
      cases haux : singlePathAux t 0 [] t.nodes.length with
      | none =>
        obtain ⟨nd, hmem, hlen⟩ := (singlePathAux_none_iff_bad t hw).mp haux
        have := hall nd hmem
        omega
      | some path => rfl
  · rw [getSinglePath_built t hb]
    constructor
    · intro h
      exact (singlePathAux_none_iff_bad t hw).mp (Except.ok.inj h)
    · intro hbad
      rw [(singlePathAux_none_iff_bad t hw).mpr hbad]
  · intro hroot
    obtain ⟨nd0, hnd0⟩ : ∃ nd, nodeAt t 0 = some nd := by
      unfold nodeAt
      rw [List.getElem?_eq_getElem hw.root_lt]
      exact ⟨_, rfl⟩
    have h2 : nd0.children = [] := by
      unfold childrenOf at hroot
      rw [hnd0] at hroot
      exact hroot
    rw [getSinglePath_built t hb]
    obtain ⟨f, hf⟩ : ∃ f, t.nodes.length = f + 1 :=
      ⟨t.nodes.length - 1, by have := hw.root_lt; omega⟩
    rw [hf, singlePathAux_of_node t 0 [] f nd0 hnd0, h2]
  · intro p hp
    rw [getSinglePath_built t hb] at hp
    have haux : singlePathAux t 0 [] t.nodes.length = some p := Except.ok.inj hp
    obtain ⟨tail, ht1, hspf⟩ := singlePathAux_sound t _ 0 [] p haux
    have hpt : p = tail := by simpa using ht1
    subst hpt
    exact ⟨hspf, SPF_coverage t hw p hspf⟩

/-- C8 witness: the built tree of `[[1,2],[1,2]]` at threshold 2 is
single-pathed, via the right-to-left direction of the equivalence. -/
theorem c8_single_path_semantics_witness : isSinglePath singlePathTree = .ok true :=
  (c8_single_path_semantics singlePathTree
    (Or.inl ⟨getDistinctItemsCount singlePathTs, 2, singlePathTs, rfl⟩)).1.mpr (by decide)

theorem mem_insertBefore (lt : Nat → Nat → Bool) (x a : Nat) (l : List Nat) :
    a ∈ insertBefore lt x l ↔ a = x ∨ a ∈ l := by
  have h := (insertBefore_perm lt x l).mem_iff (a := a)
  simpa using h

theorem insertBefore_pairwise_lt (x : Nat) : ∀ (l : List Nat),
    l.Pairwise (· < ·) → x ∉ l →
    (insertBefore (fun a b => a < b) x l).Pairwise (· < ·) := by
  intro l
  induction l with
  | nil => intro _ _; exact List.pairwise_singleton _ x
  | cons b l ih =>
    intro hp hx
    unfold insertBefore
    by_cases h : x < b
    · rw [if_pos (by simpa using h)]
      refine List.Pairwise.cons ?_ hp
      intro y hy
      rcases List.mem_cons.mp hy with h2 | h2
      · omega
      · have h3 := List.rel_of_pairwise_cons hp h2
        omega
    · rw [if_neg (by simpa using h)]
      have hbx : b < x := by
        have hne : x ≠ b := fun he => hx (he ▸ List.mem_cons_self b l)
        omega
      refine List.Pairwise.cons ?_
        (ih (List.Pairwise.of_cons hp) (fun h2 => hx (List.mem_cons_of_mem b h2)))
      intro y hy
      rcases (mem_insertBefore _ x y l).mp hy with h2 | h2
      · omega
      · exact List.rel_of_pairwise_cons hp h2

theorem stableSort_lt_pairwise (l : List Nat) (hn : l.Nodup) :
    (stableSort (fun a b => a < b) l).Pairwise (· < ·) := by
  unfold stableSort
  suffices h : ∀ (l2 acc : List Nat), l2.Nodup → acc.Pairwise (· < ·) →
      (∀ a ∈ acc, a ∉ l2) →
      (l2.foldl (fun acc a => insertBefore (fun a b => a < b) a acc) acc).Pairwise (· < ·) by
    exact h l [] hn List.Pairwise.nil (by simp)
  intro l2
  induction l2 with
  | nil => intro acc _ hacc _; exact hacc
  | cons x l2 ih =>
    intro acc hnd hacc hdisj
    refine ih (insertBefore (fun a b => a < b) x acc) (List.Nodup.of_cons hnd)
      (insertBefore_pairwise_lt x acc hacc
        (fun hmem => (hdisj x hmem) (List.mem_cons_self x l2))) ?_
    intro a ha hal
    rcases (mem_insertBefore _ x a acc).mp ha with h2 | h2
    · subst h2
      exact (List.nodup_cons.mp hnd).1 hal
    · exact hdisj a h2 (List.mem_cons_of_mem x hal)

theorem insertBefore_pairwise_lex (v : Nat → Nat) (x : Nat) : ∀ (l : List Nat),
    l.Pairwise (fun a b => v a < v b ∨ (v a = v b ∧ a ≤ b)) →
    (∀ a ∈ l, a < x) →
    (insertBefore (fun a b => v a < v b) x l).Pairwise
      (fun a b => v a < v b ∨ (v a = v b ∧ a ≤ b)) := by
  intro l
  induction l with
  | nil => intro _ _; exact List.pairwise_singleton _ x
  | cons b l ih =>
    intro hp hlt
    unfold insertBefore
    by_cases h : v x < v b
    · rw [if_pos (by simpa using h)]
      refine List.Pairwise.cons ?_ hp
      intro y hy
      rcases List.mem_cons.mp hy with h2 | h2
      · subst h2; exact Or.inl h
      · have hby := List.rel_of_pairwise_cons hp h2
        left
        rcases hby with h3 | ⟨h3, -⟩
        · omega
        · omega
    · rw [if_neg (by simpa using h)]
      refine List.Pairwise.cons ?_
        (ih (List.Pairwise.of_cons hp) (fun a ha => hlt a (List.mem_cons_of_mem b ha)))
      intro y hy
      rcases (mem_insertBefore _ x y l).mp hy with h2 | h2
      · rw [h2]
        by_cases h4 : v b < v x
        · exact Or.inl h4
        · right
          exact ⟨by omega, Nat.le_of_lt (hlt b (List.mem_cons_self b l))⟩
      · exact List.rel_of_pairwise_cons hp h2

theorem stableSort_lex_pairwise (v : Nat → Nat) (l : List Nat) (hl : l.Pairwise (· < ·)) :
    (stableSort (fun a b => v a < v b) l).Pairwise
      (fun a b => v a < v b ∨ (v a = v b ∧ a ≤ b)) := by
  unfold stableSort
  suffices h : ∀ (l2 acc : List Nat), l2.Pairwise (· < ·) →
      acc.Pairwise (fun a b => v a < v b ∨ (v a = v b ∧ a ≤ b)) →
      (∀ a ∈ acc, ∀ b ∈ l2, a < b) →
      (l2.foldl (fun acc a => insertBefore (fun a b => v a < v b) a acc) acc).Pairwise
        (fun a b => v a < v b ∨ (v a = v b ∧ a ≤ b)) by
    exact h l [] hl List.Pairwise.nil (by simp)
  intro l2
  induction l2 with
  | nil => intro acc _ hacc _; exact hacc
  | cons x l2 ih =>
    intro acc hl2 hacc hrel
    refine ih (insertBefore (fun a b => v a < v b) x acc) (List.Pairwise.of_cons hl2)
      (insertBefore_pairwise_lex v x acc hacc (fun a ha => hrel a ha x (List.mem_cons_self x l2))) ?_
    intro a ha b hb
    rcases (mem_insertBefore _ x a acc).mp ha with h2 | h2
    · rw [h2]
      exact List.rel_of_pairwise_cons hl2 hb
    · exact hrel a h2 b (List.mem_cons_of_mem x hb)

theorem lookupA_isSome (m : List (Nat × Nat)) (k : Nat) :
    (lookupA m k).isSome = true ↔ k ∈ keysOf m := by
  unfold lookupA
  rw [Option.isSome_map']
  exact findkey_isSome m k

theorem firstNodup_upsert (s : FPTreeState) (pid it w : Nat)
    (h : (keysOf s.firstInserted).Nodup) :
    (keysOf (upsertChild s pid it w).1.firstInserted).Nodup := by
  cases hf : getChildId s pid it with
  | some cid =>
    rw [(upsertChild_found_maps s pid it w cid hf).1]
    exact h
  | none =>
    rw [upsertChild_create_first s pid it w hf]
    cases hfi : lookupA s.firstInserted it with
    | some f0 => exact h
    | none =>
      rw [keysOf_setA]
      have hnm : it ∉ keysOf s.firstInserted := by
        intro hm
        have h2 : (lookupA s.firstInserted it).isSome = true :=
          (lookupA_isSome s.firstInserted it).mpr hm
        rw [hfi] at h2
        exact absurd h2 (by simp)
      rw [if_neg hnm]
      refine List.Nodup.append h (List.nodup_singleton it) ?_
      intro a ha hb
      rw [List.mem_singleton.mp hb] at ha
      exact hnm ha

theorem firstNodup_foldUpsert (w : Nat) : ∀ (items : List Nat) (s : FPTreeState) (cur : Nat),
    (keysOf s.firstInserted).Nodup →
    (keysOf ((items.foldl (fun acc it => upsertChild acc.1 acc.2 it w) (s, cur)).1).firstInserted).Nodup := by
  intro items
  induction items with
  | nil => intro s cur h; exact h
  | cons x items ih =>
    intro s cur h
    exact ih (upsertChild s cur x w).1 (upsertChild s cur x w).2
      (firstNodup_upsert s cur x w h)

theorem firstNodup_addItems (s : FPTreeState) (items : List Nat) (w : Nat)
    (h : (keysOf s.firstInserted).Nodup) :
    (keysOf (addItems s items w).firstInserted).Nodup := by
  unfold addItems
  exact firstNodup_foldUpsert w items s 0 h

theorem firstNodup_txFold (ts : List (List Nat)) : ∀ (s : FPTreeState),
    (keysOf s.firstInserted).Nodup → (keysOf (txFold s ts).firstInserted).Nodup := by
  induction ts with
  | nil => intro s h; exact h
  | cons tx ts ih =>
    intro s h
    exact ih (addItems s (filterSortItems s.supports s.minSupport tx) 1)
      (firstNodup_addItems s (filterSortItems s.supports s.minSupport tx) 1 h)

theorem firstNodup_ppFold (pps : List PrefixPathRec) : ∀ (s : FPTreeState),
    (keysOf s.firstInserted).Nodup → (keysOf (ppFold s pps).firstInserted).Nodup := by
  induction pps with
  | nil => intro s h; exact h
  | cons pp pps ih =>
    intro s h
    exact ih (addItems s (filterSortItems s.supports s.minSupport pp.path) pp.support)
      (firstNodup_addItems s (filterSortItems s.supports s.minSupport pp.path) pp.support h)

theorem links_txFold (ts : List (List Nat)) : ∀ (s : FPTreeState),
    LinksInv s → LinksInv (txFold s ts) := by
  induction ts with
  | nil => intro s h; exact h
  | cons tx ts ih =>
    intro s h
    exact ih (addItems s (filterSortItems s.supports s.minSupport tx) 1)
      (links_addItems s (filterSortItems s.supports s.minSupport tx) 1 h)

theorem links_ppFold (pps : List PrefixPathRec) : ∀ (s : FPTreeState),
    LinksInv s → LinksInv (ppFold s pps) := by
  induction pps with
  | nil => intro s h; exact h
  | cons pp pps ih =>
    intro s h
    exact ih (addItems s (filterSortItems s.supports s.minSupport pp.path) pp.support)
      (links_addItems s (filterSortItems s.supports s.minSupport pp.path) pp.support h)

theorem keys_first_iff_node (s : FPTreeState) (hL : LinksInv s) (k : Nat) :
    k ∈ keysOf s.firstInserted ↔ ∃ nd ∈ s.nodes, nd.item = some k := by
  constructor
  · intro hk
    have h1 : (lookupA s.firstInserted k).isSome = true :=
      (lookupA_isSome s.firstInserted k).mpr hk
    rw [hL.first_eq k] at h1
    cases hh : (itemIds s k).head? with
    | none => rw [hh] at h1; exact absurd h1 (by simp)
    | some i =>
      have hi : i ∈ itemIds s k := by
        cases hids : itemIds s k with
        | nil => rw [hids] at hh; exact absurd hh (by simp)
        | cons a l =>
          rw [hids, List.head?_cons] at hh
          rw [Option.some.inj hh]
          exact List.mem_cons_self i l
      obtain ⟨hlt, hit⟩ := (itemIds_mem s k i).mp hi
      unfold itemOf nodeAt at hit
      cases hg : s.nodes[i]? with
      | none => rw [hg] at hit; exact absurd hit (by simp)
      | some nd =>
        rw [hg] at hit
        obtain ⟨hlen, hnd⟩ := List.getElem?_eq_some.mp hg
        exact ⟨nd, List.mem_iff_getElem.mpr ⟨i, hlen, hnd⟩, hit⟩
  · rintro ⟨nd, hmem, hit⟩
    obtain ⟨i, hlt, hg⟩ := List.getElem_of_mem hmem
    have hio : itemOf s i = some k := by
      unfold itemOf nodeAt
      rw [List.getElem?_eq_getElem hlt, hg]
      exact hit
    have hi : i ∈ itemIds s k := (itemIds_mem s k i).mpr ⟨hlt, hio⟩
    have h1 : (itemIds s k).head?.isSome = true := by
      cases hids : itemIds s k with
      | nil => rw [hids] at hi; exact absurd hi (by simp)
      | cons a l => simp
    rw [← hL.first_eq k] at h1
    exact (lookupA_isSome s.firstInserted k).mp h1

theorem headers_props (s1 : FPTreeState) (hL : LinksInv s1)
    (hN : (keysOf s1.firstInserted).Nodup) :
    (∀ k, k ∈ getHeaderList s1 ↔ ∃ nd ∈ s1.nodes, nd.item = some k) ∧
    (getHeaderList s1).Nodup ∧
    (getHeaderList s1).Pairwise
      (fun a b => supVal s1 a < supVal s1 b ∨ (supVal s1 a = supVal s1 b ∧ a ≤ b)) := by
  refine ⟨?_, ?_, ?_⟩
  · intro k
    unfold getHeaderList
    rw [mem_stableSort]
    unfold jsKeys
    rw [mem_stableSort]
    exact keys_first_iff_node s1 hL k
  · have p1 := stableSort_perm
      (fun a b => (lookupA s1.supports a).getD 0 < (lookupA s1.supports b).getD 0)
      (jsKeys s1.firstInserted)
    have p2 := stableSort_perm (fun a b => a < b) (keysOf s1.firstInserted)
    exact (p1.trans p2).nodup_iff.mpr hN
  · have hpw : (jsKeys s1.firstInserted).Pairwise (· < ·) :=
      stableSort_lt_pairwise (keysOf s1.firstInserted) hN
    exact stableSort_lex_pairwise (fun k => (lookupA s1.supports k).getD 0)
      (jsKeys s1.firstInserted) hpw

/-- C6 (amended): for every built FPTree the headers sequence holds exactly
the distinct items carried by the tree's nodes (each once — it is
duplicate-free), sorted ascending by global support with ties between
equal-support items broken by ascending numeric key order of the
`firstInserted` table (the comparator has no tie-break of its own; the
stable sort keeps the `Object.keys` order, which for numeric items is
ascending item value), not by the canonical string order. -/
theorem c6_amended_headers (t : FPTreeState) (h : BuiltFrom t) :
    (∀ k, k ∈ t.headers ↔ ∃ nd ∈ t.nodes, nd.item = some k) ∧
    t.headers.Nodup ∧
    t.headers.Pairwise (headerLe t) := by
  rcases h with ⟨sup, m, ts, hok⟩ | ⟨sup, m, pps, hok⟩
  · obtain ⟨-, ht⟩ := fromTransactions_ok _ ts t hok
    subst ht
    have hL : LinksInv (txFold (mkFPTree sup m) ts) :=
      links_txFold ts (mkFPTree sup m) (links_mk sup m)
    have hN : (keysOf (txFold (mkFPTree sup m) ts).firstInserted).Nodup :=
      firstNodup_txFold ts (mkFPTree sup m) List.nodup_nil
    have hp := headers_props (txFold (mkFPTree sup m) ts) hL hN
    exact ⟨hp.1, hp.2.1, hp.2.2⟩
  · obtain ⟨-, ht⟩ := fromPrefixPaths_ok _ pps t hok
    subst ht
    have hL : LinksInv (ppFold (mkFPTree sup m) pps) :=
      links_ppFold pps (mkFPTree sup m) (links_mk sup m)
    have hN : (keysOf (ppFold (mkFPTree sup m) pps).firstInserted).Nodup :=
      firstNodup_ppFold pps (mkFPTree sup m) List.nodup_nil
    have hp := headers_props (ppFold (mkFPTree sup m) pps) hL hN
    exact ⟨hp.1, hp.2.1, hp.2.2⟩

/-- C6 witness: the amended headers property instantiated at the tree built
from the tie-breaking example `[[2, 10]]`. -/
theorem c6_amended_headers_witness :
    (10 ∈ tieTree.headers ↔ ∃ nd ∈ tieTree.nodes, nd.item = some 10) ∧
    tieTree.headers.Nodup ∧
    tieTree.headers.Pairwise (headerLe tieTree) := by
  have h := c6_amended_headers tieTree
    (Or.inl ⟨getDistinctItemsCount tieTs, 1, tieTs, rfl⟩)
  exact ⟨h.1 10, h.2.1, h.2.2⟩
